import Mathlib

/-!
Verification of the value-range-propagation core in src/vrp/vrp.go.

The file shallowly embeds the Go source: each Lean definition mirrors the
Go function or type of the same name.  The repository ships only vrp.go;
the interval/arithmetic support files (int.go, string.go, channel.go) are
referenced by vrp.go but absent, so those definitions are modelled from
the specification (spec.md) and carry a doc comment saying so.
-/

namespace VRP

/-- Modelled from the spec: the arithmetic kernel `Z` of §3.1 (implemented
in the absent int.go).  A value is a finite arbitrary-precision integer,
`−∞` or `+∞`, with the total order `−∞ < n < +∞`. -/
inductive Z where
  | ninf
  | pinf
  | fin (n : Int)
deriving DecidableEq, Repr

def NInfinity : Z := Z.ninf

def PInfinity : Z := Z.pinf

def NewZ (n : Int) : Z := Z.fin n

/-- Modelled from the spec: total comparison on `Z` (§3.1), returning the
Go convention −1 / 0 / 1. -/
def Z.Cmp : Z → Z → Int
  | Z.ninf, Z.ninf => 0
  | Z.ninf, _ => -1
  | _, Z.ninf => 1
  | Z.pinf, Z.pinf => 0
  | Z.pinf, _ => 1
  | _, Z.pinf => -1
  | Z.fin a, Z.fin b => if a < b then -1 else if a = b then 0 else 1

/-- Modelled from the spec: saturating addition on `Z` (§3.1); `±∞ ±
finite = ±∞`.  Addition of opposite infinities is undefined and, per the
spec, must not occur; the value returned for it here is immaterial. -/
def Z.Add : Z → Z → Z
  | Z.fin a, Z.fin b => Z.fin (a + b)
  | Z.ninf, _ => Z.ninf
  | _, Z.ninf => Z.ninf
  | Z.pinf, _ => Z.pinf
  | _, Z.pinf => Z.pinf

/-- Modelled from the spec: subtraction on `Z` (§3.1). -/
def Z.Sub : Z → Z → Z
  | Z.fin a, Z.fin b => Z.fin (a - b)
  | Z.ninf, _ => Z.ninf
  | _, Z.pinf => Z.ninf
  | Z.pinf, _ => Z.pinf
  | _, Z.ninf => Z.pinf

/-- Modelled from the spec: `IntInterval` (§3.2): an ordered pair
`(Lower, Upper)` with `Lower ≤ Upper`, or the distinguished
empty/unknown value (`known = false`). -/
structure IntInterval where
  known : Bool
  Lower : Z
  Upper : Z
deriving DecidableEq, Repr

/-- Modelled from the spec: the distinguished empty/unknown interval. -/
def EmptyIntInterval : IntInterval := ⟨false, Z.fin 0, Z.fin 0⟩

/-- Modelled from the spec: interval constructor; a pair whose bounds are
out of order collapses to the empty interval (§3.2 requires
`Lower ≤ Upper` for every non-empty interval). -/
def NewIntInterval (l u : Z) : IntInterval :=
  if u.Cmp l = -1 then EmptyIntInterval else ⟨true, l, u⟩

def IntInterval.IsKnown (i : IntInterval) : Bool := i.known

def Z.minz (a b : Z) : Z := if a.Cmp b ≤ 0 then a else b

def Z.maxz (a b : Z) : Z := if a.Cmp b ≤ 0 then b else a

/-- Modelled from the spec: `Union` (§3.2): `(min(aL,bL), max(aU,bU))`;
if one side is unknown, returns the other. -/
def IntInterval.Union (i other : IntInterval) : IntInterval :=
  if !i.known then other
  else if !other.known then i
  else NewIntInterval (Z.minz i.Lower other.Lower) (Z.maxz i.Upper other.Upper)

/-- Modelled from the spec: `Intersection` (§3.2): `(max(aL,bL),
min(aU,bU))`; if the result would have `Lower > Upper` it is unknown. -/
def IntInterval.Intersection (i other : IntInterval) : IntInterval :=
  if !i.known then EmptyIntInterval
  else if !other.known then EmptyIntInterval
  else NewIntInterval (Z.maxz i.Lower other.Lower) (Z.minz i.Upper other.Upper)

/-- Modelled from the spec: `StringInterval` wraps an `IntInterval`
describing the length in bytes (§3.2). -/
structure StringInterval where
  Length : IntInterval
deriving DecidableEq, Repr

def StringInterval.IsKnown (s : StringInterval) : Bool := s.Length.IsKnown

/-- Modelled from the spec: `ChannelInterval` wraps an `IntInterval`
describing the buffer capacity (§3.2). -/
structure ChannelInterval where
  Size : IntInterval
deriving DecidableEq, Repr

def ChannelInterval.IsKnown (c : ChannelInterval) : Bool := c.Size.IsKnown

/-- The sum type behind Go's `Range` interface: one of `IntInterval`,
`StringInterval`, `ChannelInterval` (§3.2).  A Go `Range` variable may
also be nil; nil is represented as `none : Option RangeV`. -/
inductive RangeV where
  | int (i : IntInterval)
  | str (s : StringInterval)
  | chan (c : ChannelInterval)
deriving DecidableEq, Repr

def RangeV.IsKnown : RangeV → Bool
  | RangeV.int i => i.IsKnown
  | RangeV.str s => s.IsKnown
  | RangeV.chan c => c.IsKnown

/-- `go/types` basic kinds that vrp.go distinguishes. -/
inductive BasicKind where
  | int | int8 | int16 | int32 | int64
  | uint | uint8 | uint16 | uint32 | uint64
  | untypedInt | bool | float64 | string | untypedString
deriving DecidableEq, Repr

/-- `types.IsInteger` bit of `Info()` for a basic kind. -/
def BasicKind.isInteger : BasicKind → Bool
  | BasicKind.int | BasicKind.int8 | BasicKind.int16 | BasicKind.int32
  | BasicKind.int64 | BasicKind.uint | BasicKind.uint8 | BasicKind.uint16
  | BasicKind.uint32 | BasicKind.uint64 | BasicKind.untypedInt => true
  | _ => false

/-- `types.IsUnsigned` bit of `Info()` for a basic kind. -/
def BasicKind.isUnsigned : BasicKind → Bool
  | BasicKind.uint | BasicKind.uint8 | BasicKind.uint16
  | BasicKind.uint32 | BasicKind.uint64 => true
  | _ => false

/-- String kinds (`types.String`, `types.UntypedString`). -/
def BasicKind.isString : BasicKind → Bool
  | BasicKind.string | BasicKind.untypedString => true
  | _ => false

/-- A type as seen through `Type().Underlying()`: a basic type, a channel
type, or anything else.  The embedding stores the underlying structural
type directly, so `Underlying` is the identity. -/
inductive Ty where
  | basic (k : BasicKind)
  | chan
  | other
deriving DecidableEq, Repr

/-- `types.StdSizes{WordSize: 8, MaxAlign: 1}.Sizeof` for the basic types
vrp.go can meet in the final clamping pass. -/
def BasicKind.sizeof : BasicKind → Int
  | BasicKind.int8 | BasicKind.uint8 | BasicKind.bool => 1
  | BasicKind.int16 | BasicKind.uint16 => 2
  | BasicKind.int32 | BasicKind.uint32 => 4
  | _ => 8

/-- `isSupportedType` (vrp.go line 75): strings, integer basics and
channels are supported. -/
def isSupportedType : Ty → Bool
  | Ty.basic k => if k.isString then true else k.isInteger
  | Ty.chan => true
  | Ty.other => false

/-- The payload of a `*ssa.Const`: its `constant.Value`, which is either
nil or an integer or string constant (the kinds vrp.go handles). -/
inductive CVal where
  | int (n : Int)
  | str (s : String)
deriving DecidableEq, Repr

/-- The shape of an SSA value as far as vrp.go inspects it: a plain
value, a `*ssa.Const` (whose `Value` may be nil), or a call of the
builtin `len` (the one call shape `sigmaString` looks inside; the
argument is stored flattened as id and type, itself a plain value). -/
inductive Form where
  | plain
  | konst (v : Option CVal)
  | lenCall (argId : Nat) (argTy : Ty)
deriving DecidableEq, Repr

/-- An SSA value: Go compares them by pointer identity, modelled by a
unique `id`.  `ty` is the value's type seen through `Underlying()`. -/
structure Val where
  id : Nat
  ty : Ty
  form : Form
deriving DecidableEq, Repr

/-- The comparison tokens a conditional's `*ssa.BinOp` can carry. -/
inductive Token where
  | LSS | GTR | LEQ | GEQ | EQL | NEQ
deriving DecidableEq, Repr

/-- `invertToken` (vrp.go line 946). -/
def invertToken : Token → Token
  | Token.LSS => Token.GEQ
  | Token.GTR => Token.LEQ
  | Token.EQL => Token.NEQ
  | Token.NEQ => Token.EQL
  | Token.GEQ => Token.LSS
  | Token.LEQ => Token.GTR

/-- `ConstantToZ` (vrp.go line 146) applied to the payload of a
`*ssa.Const`.  Callers only reach it with integer constants; the value
for the other payloads is immaterial. -/
def constantToZ : Option CVal → Z
  | some (CVal.int n) => NewZ n
  | _ => NewZ 0

/-- The constraint variants of vrp.go that the verified claims exercise
(`PhiConstraint`, the interval literals, the σ intersection constraints
and the channel change-type constraint).  Each stores its target `y`
last. -/
inductive Constr where
  | phi (Vars : List Val) (y : Val)
  | intInterval (I : IntInterval) (y : Val)
  | stringInterval (I : IntInterval) (y : Val)
  | intIntersection (X : Val) (I : IntInterval) (y : Val)
  | stringIntersection (X : Val) (I : IntInterval) (y : Val)
  | futureIntIntersection (X : Val) (lower upper : Option Val)
      (lowerOffset upperOffset : Z) (y : Val)
  | channelChangeType (X : Val) (y : Val)
deriving DecidableEq, Repr

/-- `Constraint.Y()`. -/
def Constr.Y : Constr → Val
  | Constr.phi _ y => y
  | Constr.intInterval _ y => y
  | Constr.stringInterval _ y => y
  | Constr.intIntersection _ _ y => y
  | Constr.stringIntersection _ _ y => y
  | Constr.futureIntIntersection _ _ _ _ _ y => y
  | Constr.channelChangeType _ y => y

/-- `Constraint.Operands()`: the data operands each constraint reads.
Interval literals read nothing; the future intersection constraint reads
only its `X` (its endpoints are futures, not operands). -/
def Constr.Operands : Constr → List Val
  | Constr.phi vs _ => vs
  | Constr.intInterval _ _ => []
  | Constr.stringInterval _ _ => []
  | Constr.intIntersection x _ _ => [x]
  | Constr.stringIntersection x _ _ => [x]
  | Constr.futureIntIntersection x _ _ _ _ _ => [x]
  | Constr.channelChangeType x _ => [x]

/-- `Future.Futures()`: the future (control) operands; non-nil endpoint
values of a `FutureIntIntersectionConstraint`. -/
def Constr.Futures : Constr → List Val
  | Constr.futureIntIntersection _ lo up _ _ _ =>
      (lo.toList) ++ (up.toList)
  | _ => []

def Constr.isFuture : Constr → Bool
  | Constr.futureIntIntersection _ _ _ _ _ _ => true
  | _ => false

/-- `sigmaIntegerFuture` (vrp.go line 94), for a σ-node `insY` refining
`insX` under the conditional `insX' condOp other` with operands
`op0, op1`, neither of which is a constant. -/
def sigmaIntegerFuture (insBranch : Bool) (insY insX : Val) (condOp : Token)
    (op0 op1 : Val) : Option Constr :=
  let op := if insBranch then condOp else invertToken condOp
  let s : Val × Val × Token :=
    if op0 = insX then (op0, op1, op) else (op1, op0, invertToken op)
  match s with
  | (x, other, op) =>
    match op with
    | Token.EQL =>
        some (Constr.futureIntIntersection x (some other) (some other)
          (NewZ 0) (NewZ 0) insY)
    | Token.GTR | Token.GEQ =>
        let off : Int := if condOp = Token.GTR then 1 else 0
        some (Constr.futureIntIntersection x (some other) none
          (NewZ off) PInfinity insY)
    | Token.LSS | Token.LEQ =>
        let off : Int := if condOp = Token.LSS then -1 else 0
        some (Constr.futureIntIntersection x none (some other)
          NInfinity (NewZ off) insY)
    | _ => none

/-- `sigmaIntegerConst` (vrp.go line 153): the σ refinement against a
constant right operand.  Note that, as in the source, the ±1 offset for
strict inequalities tests `cond.Op` (the original token), not the
possibly inverted `op`. -/
def sigmaIntegerConst (insBranch : Bool) (insY : Val) (condOp : Token)
    (op0 op1 : Val) : Option Constr :=
  let op := if insBranch then condOp else invertToken condOp
  match op1.form with
  | Form.konst kv =>
    let v := constantToZ kv
    match op with
    | Token.EQL =>
        some (Constr.intIntersection op0 (NewIntInterval v v) insY)
    | Token.GTR | Token.GEQ =>
        let off : Int := if condOp = Token.GTR then 1 else 0
        some (Constr.intIntersection op0
          (NewIntInterval (v.Add (NewZ off)) PInfinity) insY)
    | Token.LSS | Token.LEQ =>
        let off : Int := if condOp = Token.LSS then -1 else 0
        some (Constr.intIntersection op0
          (NewIntInterval NInfinity (v.Add (NewZ off))) insY)
    | _ => none
  | _ => none

/-- `sigmaInteger` (vrp.go line 194): dispatch between the future and the
constant form depending on whether an operand is a `*ssa.Const`. -/
def sigmaInteger (insBranch : Bool) (insY insX : Val) (condOp : Token)
    (op0 op1 : Val) : Option Constr :=
  let ok1 := match op0.form with | Form.konst _ => true | _ => false
  let ok2 := match op1.form with | Form.konst _ => true | _ => false
  if !ok1 && !ok2 then sigmaIntegerFuture insBranch insY insX condOp op0 op1
  else sigmaIntegerConst insBranch insY condOp op0 op1

/-- `sigmaString` (vrp.go line 203): σ refinement of a string via a
comparison of `len(s)` against a constant. -/
def sigmaString (insBranch : Bool) (insY : Val) (condOp : Token)
    (op0 op1 : Val) : Option Constr :=
  let op := if insBranch then condOp else invertToken condOp
  match op1.form with
  | Form.konst kv =>
    match op0.form with
    | Form.lenCall argId argTy =>
      let v := constantToZ kv
      let x : Val := ⟨argId, argTy, Form.plain⟩
      match op with
      | Token.EQL =>
          some (Constr.stringIntersection x (NewIntInterval v v) insY)
      | Token.GTR | Token.GEQ =>
          let off : Int := if condOp = Token.GTR then 1 else 0
          some (Constr.stringIntersection x
            (NewIntInterval (v.Add (NewZ off)) PInfinity) insY)
      | Token.LSS | Token.LEQ =>
          let off : Int := if condOp = Token.LSS then -1 else 0
          some (Constr.stringIntersection x
            (NewIntInterval NInfinity (v.Add (NewZ off))) insY)
      | _ => none
    | _ => none
  | _ => none

/-- The range store: `Ranges map[ssa.Value]Range`, an association list
keyed by value identity.  The stored `Option RangeV` may be `none` (a
nil `Range` written into the map). -/
abbrev Ranges : Type := List (Nat × Option RangeV)

def rangesLookup (r : Ranges) (id : Nat) : Option (Option RangeV) :=
  (r.find? (fun p => p.1 = id)).map (fun p => p.2)

def rangesSet (r : Ranges) (id : Nat) (v : Option RangeV) : Ranges :=
  if (r.find? (fun p => p.1 = id)).isSome then
    r.map (fun p => if p.1 = id then (id, v) else p)
  else r ++ [(id, v)]

/-- `Ranges.Get` (vrp.go line 622): nil values read as nil; missing
values read as the typed default, whose `Basic` arm defaults to the
empty `IntInterval` for every non-string basic kind. -/
def Ranges.Get (r : Ranges) (x : Option Val) : Option RangeV :=
  match x with
  | none => none
  | some v =>
    match rangesLookup r v.id with
    | some stored => stored
    | none =>
      match v.ty with
      | Ty.basic k =>
          if k.isString then some (RangeV.str ⟨EmptyIntInterval⟩)
          else some (RangeV.int EmptyIntInterval)
      | Ty.chan => some (RangeV.chan ⟨EmptyIntInterval⟩)
      | Ty.other => none

/-- The `nlc` search of `Graph.widen` (vrp.go lines 699–704): scan
`consts` in slice order, take the first element `≤ l`, default `−∞`. -/
def nlcOf (consts : List Z) (l : Z) : Z :=
  match consts.find? (fun co => co.Cmp l ≤ 0) with
  | some co => co
  | none => NInfinity

/-- The `nuc` search of `Graph.widen` (vrp.go lines 705–710): scan
`consts` in slice order, take the first element `≥ u`, default `+∞`. -/
def nucOf (consts : List Z) (u : Z) : Z :=
  match consts.find? (fun co => co.Cmp u ≥ 0) with
  | some co => co
  | none => PInfinity

/-- The interval half of `Graph.widen` (vrp.go lines 693–725), the
`widenIntInterval` closure: the two anchor searches scan the sorted
`consts` slice in ascending order and take the first hit. -/
def widenIntInterval (consts : List Z) (oi ni : IntInterval) :
    IntInterval × Bool :=
  if !ni.IsKnown then (oi, false)
  else
    let nlc := nlcOf consts ni.Lower
    let nuc := nucOf consts ni.Upper
    if !oi.IsKnown then (ni, true)
    else if ni.Lower.Cmp oi.Lower = -1 && ni.Upper.Cmp oi.Upper = 1 then
      (NewIntInterval nlc nuc, true)
    else if ni.Lower.Cmp oi.Lower = -1 then
      (NewIntInterval nlc oi.Upper, true)
    else if ni.Upper.Cmp oi.Upper = 1 then
      (NewIntInterval oi.Lower nuc, true)
    else (oi, false)

/-- The interval half of `Graph.narrow` (vrp.go lines 749–768), the
`narrowIntInterval` closure. -/
def narrowIntInterval (oi ni : IntInterval) : IntInterval × Bool :=
  if oi.Lower = NInfinity ∧ ni.Lower ≠ NInfinity then
    (NewIntInterval ni.Lower oi.Upper, true)
  else if oi.Upper = PInfinity ∧ ni.Upper ≠ PInfinity then
    (NewIntInterval oi.Lower ni.Upper, true)
  else if oi.Lower.Cmp ni.Lower = 1 then
    (NewIntInterval ni.Lower oi.Upper, true)
  else if oi.Upper.Cmp ni.Upper = -1 then
    (NewIntInterval oi.Lower ni.Upper, true)
  else (oi, false)

/-- The body of the final clamping loop of `Graph.Solve` (vrp.go lines
563–592) for one map entry whose range is an `IntInterval` and whose
value has basic kind `k`.  Note the whole signed check sits inside
`i.Upper != PInfinity`. -/
def clampEntry (k : BasicKind) (i : IntInterval) : IntInterval :=
  if k.isUnsigned = false then
    if i.Upper ≠ PInfinity then
      let bits : Int := k.sizeof * 8 - 1
      let upper : Int := 2 ^ bits.toNat - 1
      let lower : Int := -(2 ^ bits.toNat)
      if i.Upper.Cmp (NewZ upper) = 1 then NewIntInterval NInfinity PInfinity
      else if i.Lower.Cmp (NewZ lower) = -1 then
        NewIntInterval NInfinity PInfinity
      else i
    else i
  else i

/-- `InfinityFor` (in the absent int.go).  Modelled from the spec: the
typed top for an integer value; unsigned types have lower bound 0
"already asserted by typing" (spec §4.F), signed types get `(−∞,+∞)`. -/
def InfinityFor (v : Val) : IntInterval :=
  match v.ty with
  | Ty.basic k =>
      if k.isUnsigned then NewIntInterval (NewZ 0) PInfinity
      else NewIntInterval NInfinity PInfinity
  | _ => NewIntInterval NInfinity PInfinity

/-! ### The constraint graph

Vertices hold either an SSA value or a constraint (vrp.go line 610);
the `Vertices map[interface{}]*Vertex` is keyed by payload identity,
modelled by `VKey`.  Constraints are numbered by emission order. -/

inductive VKey where
  | val (id : Nat)
  | constr (cid : Nat)
deriving DecidableEq, Repr

/-- `Edge` (vrp.go line 879). -/
structure EdgeE where
  efrom : VKey
  eto : VKey
  control : Bool
deriving DecidableEq, Repr

def afind {β : Type} (k : Nat) (l : List (Nat × β)) : Option β :=
  (l.find? (fun p => p.1 = k)).map (fun p => p.2)

def afindK {β : Type} (k : VKey) (l : List (VKey × β)) : Option β :=
  (l.find? (fun p => p.1 = k)).map (fun p => p.2)

/-- Map assignment for the per-vertex attributes (Go stores them as
fields of `*Vertex`); a shadowing cons, read back only through
`afindK`. -/
def asetK {β : Type} (k : VKey) (v : β) (l : List (VKey × β)) :
    List (VKey × β) :=
  (k, v) :: l

/-- `Graph` (vrp.go line 643): the vertex set in insertion order, the
payloads of value and constraint vertices, the edge list, and — after
`FindSCCs` — the SCC id of every vertex and the number of SCCs. -/
structure Graph where
  vertices : List VKey
  vals : List (Nat × Val)
  constrs : List (Nat × Constr)
  edges : List EdgeE
  sccOf : List (VKey × Nat)
  numSCCs : Nat
deriving Repr

/-- The mutable solver state: the range store plus the `resolved` flag
and current interval `I` of every future constraint. -/
structure SState where
  ranges : Ranges
  fresolved : List (Nat × Bool)
  fI : List (Nat × IntInterval)
deriving Repr

def asetNat {β : Type} (l : List (Nat × β)) (k : Nat) (v : β) :
    List (Nat × β) :=
  if (l.find? (fun p => p.1 = k)).isSome then
    l.map (fun p => if p.1 = k then (k, v) else p)
  else l ++ [(k, v)]

def getR (st : SState) (v : Val) : Option RangeV :=
  Ranges.Get st.ranges (some v)

def setR (st : SState) (y : Val) (r : Option RangeV) : SState :=
  { st with ranges := rangesSet st.ranges y.id r }

/-- `Range.Union` dynamic dispatch as used by `PhiConstraint.Eval`
(vrp.go line 59): receiver-first union; a nil or differently-shaped
argument leaves the receiver (modelled from the spec §3.2: an unknown
side is neutral; operands of a φ share one type, so the mismatch arm is
never exercised). -/
def RangeV.union : RangeV → Option RangeV → RangeV
  | RangeV.int i, some (RangeV.int j) => RangeV.int (i.Union j)
  | RangeV.str a, some (RangeV.str b) => RangeV.str ⟨a.Length.Union b.Length⟩
  | RangeV.chan a, some (RangeV.chan b) => RangeV.chan ⟨a.Size.Union b.Size⟩
  | r, _ => r

/-- `Constraint.Eval` for each variant, per the spec's table (§3.3; the
per-variant implementations live in the absent int.go / string.go /
channel.go and are modelled from the spec).  A future constraint with
`resolved = false` evaluates to the empty `IntInterval` (§4.C).
Go's nil-interface method calls and failed type assertions surface as
`Except.error`. -/
def evalConstr (st : SState) (cid : Nat) (c : Constr) :
    Except String (Option RangeV) :=
  match c with
  | Constr.phi vars _ =>
      vars.foldlM (fun acc v =>
        match getR st v with
        | none => Except.error "runtime error: nil Range in phi Eval"
        | some r => Except.ok (some (r.union acc))) none
  | Constr.intInterval I _ => Except.ok (some (RangeV.int I))
  | Constr.stringInterval I _ => Except.ok (some (RangeV.str ⟨I⟩))
  | Constr.intIntersection x I _ =>
      match getR st x with
      | some (RangeV.int xi) => Except.ok (some (RangeV.int (xi.Intersection I)))
      | _ => Except.error "interface conversion: Range is not IntInterval"
  | Constr.stringIntersection x I _ =>
      match getR st x with
      | some (RangeV.str xs) =>
          Except.ok (some (RangeV.str ⟨xs.Length.Intersection I⟩))
      | _ => Except.error "interface conversion: Range is not StringInterval"
  | Constr.futureIntIntersection x _ _ _ _ _ =>
      if (afind cid st.fresolved).getD false then
        match getR st x with
        | some (RangeV.int xi) =>
            Except.ok (some (RangeV.int
              (xi.Intersection ((afind cid st.fI).getD EmptyIntInterval))))
        | _ => Except.error "interface conversion: Range is not IntInterval"
      else Except.ok (some (RangeV.int EmptyIntInterval))
  | Constr.channelChangeType x _ => Except.ok (getR st x)

/-- `FutureIntIntersectionConstraint.Resolve`.  Modelled from the spec
(§3.3): read the endpoint ranges into concrete bounds — a nil endpoint
contributes its literal ±∞ offset — and set `resolved`. -/
def resolveFuture (st : SState) (cid : Nat) (c : Constr) : SState :=
  match c with
  | Constr.futureIntIntersection _ lo up lowerOffset upperOffset _ =>
      let lb := match lo with
        | none => lowerOffset
        | some lv =>
            match getR st lv with
            | some (RangeV.int i) => i.Lower.Add lowerOffset
            | _ => NInfinity
      let ub := match up with
        | none => upperOffset
        | some uv =>
            match getR st uv with
            | some (RangeV.int i) => i.Upper.Add upperOffset
            | _ => PInfinity
      { st with
        fI := asetNat st.fI cid (NewIntInterval lb ub)
        fresolved := asetNat st.fresolved cid true }
  | _ => st

/-- `Graph.widen` (vrp.go line 689): dispatch on the current range of
`Y`, evaluate the constraint, and widen with the jump set. -/
def widen (st : SState) (cid : Nat) (c : Constr) (consts : List Z) :
    Except String (SState × Bool) :=
  match getR st c.Y with
  | some (RangeV.int oi) => do
      let ev ← evalConstr st cid c
      match ev with
      | some (RangeV.int ni) =>
          let r := widenIntInterval consts oi ni
          if r.2 then
            Except.ok (setR st c.Y (some (RangeV.int r.1)), true)
          else Except.ok (st, false)
      | _ => Except.error "interface conversion: Range is not IntInterval"
  | some (RangeV.str oi) => do
      let ev ← evalConstr st cid c
      match ev with
      | some (RangeV.str ni) =>
          let r := widenIntInterval consts oi.Length ni.Length
          if r.2 then
            Except.ok (setR st c.Y (some (RangeV.str ⟨r.1⟩)), true)
          else Except.ok (st, false)
      | _ => Except.error "interface conversion: Range is not StringInterval"
  | _ => Except.ok (st, false)

/-- `Graph.narrow` (vrp.go line 748); the `consts` parameter is unused
by the source as well. -/
def narrow (st : SState) (cid : Nat) (c : Constr) (consts : List Z) :
    Except String (SState × Bool) :=
  match getR st c.Y with
  | some (RangeV.int oi) => do
      let ev ← evalConstr st cid c
      match ev with
      | some (RangeV.int ni) =>
          let r := narrowIntInterval oi ni
          if r.2 then
            Except.ok (setR st c.Y (some (RangeV.int r.1)), true)
          else Except.ok (st, false)
      | _ => Except.error "interface conversion: Range is not IntInterval"
  | some (RangeV.str oi) => do
      let ev ← evalConstr st cid c
      match ev with
      | some (RangeV.str ni) =>
          let r := narrowIntInterval oi.Length ni.Length
          if r.2 then
            Except.ok (setR st c.Y (some (RangeV.str ⟨r.1⟩)), true)
          else Except.ok (st, false)
      | _ => Except.error "interface conversion: Range is not StringInterval"
  | _ => Except.ok (st, false)

/-! ### Tarjan's SCC algorithm (`Graph.FindSCCs`, vrp.go line 888) -/

/-- Successors of a vertex: `AddEdge` appends every new edge both to
`g.Edges` and to `From.Succs`, so the successor list of `v` is the
subsequence of edges leaving `v`, in insertion order. -/
def succsOf (g : Graph) (k : VKey) : List EdgeE :=
  g.edges.filter (fun e => e.efrom = k)

/-- The Tarjan bookkeeping carried by the vertices (index, lowlink,
on-stack flag, provisional SCC id) plus the DFS counter and stack.  Go
uses 0 as the "unvisited" index (the `Vertex` zero value); the stack is
pushed and popped at the same end, modelled by the list head. -/
structure TState where
  index : Nat
  indexOf : List (VKey × Nat)
  lowlink : List (VKey × Nat)
  onstack : List (VKey × Bool)
  stack : List VKey
  sccOfT : List (VKey × Nat)
  scc : Nat
deriving Repr

def tIndex (st : TState) (k : VKey) : Nat := (afindK k st.indexOf).getD 0

def tLow (st : TState) (k : VKey) : Nat := (afindK k st.lowlink).getD 0

def tOnstack (st : TState) (k : VKey) : Bool :=
  (afindK k st.onstack).getD false

/-- The pop loop at the end of `strongconnect` (vrp.go lines 920–931):
pop until `v`, unmarking and assigning the current SCC id. -/
def popUntil (v : VKey) (scc : Nat) :
    List VKey → List (VKey × Bool) → List (VKey × Nat) →
    List VKey × List (VKey × Bool) × List (VKey × Nat)
  | [], ons, sccOf => ([], ons, sccOf)
  | w :: rest, ons, sccOf =>
      let ons2 := asetK w false ons
      let sccOf2 := asetK w scc sccOf
      if w = v then (rest, ons2, sccOf2)
      else popUntil v scc rest ons2 sccOf2

/-- One iteration of the successor loop of `strongconnect` (vrp.go
lines 903–918): recurse into an unvisited successor and take its
lowlink, or take the index of an on-stack successor; `rec` is the
recursive call at the current fuel. -/
def scBody (rec : VKey → TState → Except String TState) (v : VKey)
    (st : TState) (e : EdgeE) : Except String TState := do
  let w := e.eto
  if tIndex st w = 0 then do
    let st ← rec w st
    if tLow st w < tLow st v then
      pure { st with lowlink := asetK v (tLow st w) st.lowlink }
    else pure st
  else if tOnstack st w then
    if tIndex st w < tLow st v then
      pure { st with lowlink := asetK v (tIndex st w) st.lowlink }
    else pure st
  else pure st

/-- `strongconnect` (vrp.go line 896), with explicit recursion fuel; a
fuel of at least the number of vertices is sufficient since every
nested call visits an unvisited vertex. -/
def strongconnect (fuel : Nat) (g : Graph) (v : VKey) (st : TState) :
    Except String TState :=
  match fuel with
  | 0 => Except.error "strongconnect: out of fuel"
  | fuel + 1 => do
    let st := { st with
      indexOf := asetK v st.index st.indexOf
      lowlink := asetK v st.index st.lowlink
      index := st.index + 1
      stack := v :: st.stack
      onstack := asetK v true st.onstack }
    let st ← (succsOf g v).foldlM (fun st e => do
        let w := e.eto
        if tIndex st w = 0 then do
          let st ← strongconnect fuel g w st
          if tLow st w < tLow st v then
            pure { st with lowlink := asetK v (tLow st w) st.lowlink }
          else pure st
        else if tOnstack st w then
          if tIndex st w < tLow st v then
            pure { st with lowlink := asetK v (tIndex st w) st.lowlink }
          else pure st
        else pure st) st
    if tLow st v = tIndex st v then
      let r := popUntil v st.scc st.stack st.onstack st.sccOfT
      pure { st with stack := r.1, onstack := r.2.1, sccOfT := r.2.2,
                     scc := st.scc + 1 }
    else pure st

/-- `Graph.FindSCCs` (vrp.go line 888): run `strongconnect` from every
unvisited vertex in map-iteration order `ord`, then reverse the SCC
numbering (`n.SCC = scc - n.SCC - 1`, line 941). -/
def FindSCCs (g : Graph) (ord : List VKey) (fuel : Nat) :
    Except String Graph := do
  let st0 : TState := ⟨1, [], [], [], [], [], 0⟩
  let st ← ord.foldlM (fun st v =>
      if tIndex st v = 0 then strongconnect fuel g v st else pure st) st0
  let k := st.scc
  Except.ok { g with
    sccOf := g.vertices.map (fun w => (w, k - (afindK w st.sccOfT).getD 0 - 1))
    numSCCs := k }

/-- `g.SCCs[scc]`: the members of an SCC in map-iteration order (the
bucket lists of vrp.go line 940 are filled in that order). -/
def sccMembers (g : Graph) (ord : List VKey) (scc : Nat) : List VKey :=
  ord.filter (fun k => afindK k g.sccOf = some scc)

/-- `g.sccEdges[scc]` (vrp.go lines 441–451): edges whose source lies in
the SCC, in edge-insertion order. -/
def sccEdgesOf (g : Graph) (scc : Nat) : List EdgeE :=
  g.edges.filter (fun e => afindK e.efrom g.sccOf = some scc)

/-- The constraint behind a vertex key, if any. -/
def constrOf (g : Graph) (k : VKey) : Option (Nat × Constr) :=
  match k with
  | VKey.constr cid => (afind cid g.constrs).map (fun c => (cid, c))
  | VKey.val _ => none

/-- The SSA value behind a vertex key, if any. -/
def valOf (g : Graph) (k : VKey) : Option Val :=
  match k with
  | VKey.val id => afind id g.vals
  | VKey.constr _ => none

/-- `g.futures[scc]` (vrp.go lines 441–451): targets of control edges
leaving the SCC that are future intersection constraints. -/
def futuresOf (g : Graph) (scc : Nat) : List (Nat × Constr) :=
  (g.edges.filter (fun e =>
    e.control && (afindK e.efrom g.sccOf = some scc) &&
      (match constrOf g e.eto with
       | some (_, c) => c.isFuture
       | none => false))).filterMap (fun e => constrOf g e.eto)

/-! ### The solver (`Graph.Solve`, vrp.go line 455) -/

/-- `Graph.resolveFutures` (vrp.go line 791). -/
def resolveFuturesOf (st : SState) (g : Graph) (scc : Nat) : SState :=
  (futuresOf g scc).foldl (fun st p => resolveFuture st p.1 p.2) st

/-- `Graph.entries` (vrp.go line 797): for every value vertex of the SCC
(in map order `ord`), provisionally resolve the first future constraint
targeting it, then collect it if its range is known.  A nil range at the
`IsKnown` call would be a nil-interface method call. -/
def entriesOf (st : SState) (g : Graph) (ord : List VKey) (scc : Nat) :
    Except String (SState × List Val) :=
  ord.foldlM (fun acc k => do
    let (st, es) := acc
    if afindK k g.sccOf = some scc then
      match valOf g k with
      | some v => do
          let fut := (ord.filterMap (fun k2 => constrOf g k2)).find?
            (fun p => p.2.isFuture && p.2.Y = v)
          let st ← match fut with
            | some (cid, c) =>
                if (afind cid st.fresolved).getD false then pure st
                else do
                  let ev ← evalConstr st cid c
                  pure { (setR st c.Y ev) with
                         fresolved := asetNat st.fresolved cid true }
            | none => pure st
          match Ranges.Get st.ranges (some v) with
          | none => Except.error "runtime error: IsKnown on nil Range"
          | some r =>
              if r.IsKnown then pure (st, es ++ [v]) else pure (st, es)
      | none => pure (st, es)
    else pure (st, es)) (st, [])

/-- `Graph.uses` (vrp.go line 831): the non-control edges of the SCC
from a value to a constraint whose target also lies in the SCC, grouped
by source value. -/
def usesOf (g : Graph) (scc : Nat) :
    Except String (List (Nat × List (Nat × Constr))) :=
  (sccEdgesOf g scc).foldlM (fun m e =>
    if e.control then pure m
    else
      match valOf g e.efrom with
      | none => pure m
      | some v =>
          match constrOf g e.eto with
          | none => Except.error "interface conversion: not a Constraint"
          | some (cid, c) =>
              match afindK (VKey.val c.Y.id) g.sccOf with
              | none => Except.error "runtime error: sink vertex missing"
              | some s =>
                  if s = scc then
                    pure (match afind v.id m with
                      | some cs => asetNat m v.id (cs ++ [(cid, c)])
                      | none => m ++ [(v.id, [(cid, c)])])
                  else pure m) []

/-- `Graph.actives` (vrp.go line 848): the non-constant values of the
SCC, in map order. -/
def activesOf (g : Graph) (ord : List VKey) (scc : Nat) : List Val :=
  ord.filterMap (fun k =>
    if afindK k g.sccOf = some scc then
      match valOf g k with
      | some v =>
          match v.form with
          | Form.konst _ => none
          | _ => some v
      | none => none
    else none)

/-- The widening worklist loop of `Graph.Solve` (vrp.go lines 506–514):
pop from the end, widen every use, push changed targets. -/
def widenLoop (fuel : Nat) (st : SState)
    (uses : List (Nat × List (Nat × Constr))) (worklist : List Val)
    (consts : List Z) : Except String SState :=
  match fuel with
  | 0 => Except.error "widenLoop: out of fuel"
  | fuel + 1 =>
    match worklist.getLast? with
    | none => Except.ok st
    | some v => do
        let rest := worklist.dropLast
        let r ← ((afind v.id uses).getD []).foldlM (fun acc p => do
            let (st, pushes) := acc
            let w ← widen st p.1 p.2 consts
            pure (w.1, if w.2 then pushes ++ [p.2.Y] else pushes))
          (st, ([] : List Val))
        widenLoop fuel r.1 uses (rest ++ r.2) consts

/-- The narrowing worklist loop of `Graph.Solve` (vrp.go lines
533–542). -/
def narrowLoop (fuel : Nat) (st : SState)
    (uses : List (Nat × List (Nat × Constr))) (worklist : List Val)
    (consts : List Z) : Except String SState :=
  match fuel with
  | 0 => Except.error "narrowLoop: out of fuel"
  | fuel + 1 =>
    match worklist.getLast? with
    | none => Except.ok st
    | some v => do
        let rest := worklist.dropLast
        let r ← ((afind v.id uses).getD []).foldlM (fun acc p => do
            let (st, pushes) := acc
            let w ← narrow st p.1 p.2 consts
            pure (w.1, if w.2 then pushes ++ [p.2.Y] else pushes))
          (st, ([] : List Val))
        narrowLoop fuel r.1 uses (rest ++ r.2) consts

/-- The singleton-SCC branch of `Graph.Solve` (vrp.go lines 478–502). -/
def solveSingleton (st : SState) (g : Graph) (ord : List VKey) (scc : Nat) :
    Except String SState := do
  let st := resolveFuturesOf st g scc
  match (sccMembers g ord scc).head? with
  | none => Except.error "empty SCC"
  | some k => do
      let st ← match valOf g k with
        | some v =>
            match v.ty with
            | Ty.basic bk =>
                if bk.isString then
                  match getR st v with
                  | some (RangeV.str s) =>
                      pure (if !s.IsKnown then
                        setR st v (some (RangeV.str
                          ⟨NewIntInterval (NewZ 0) PInfinity⟩))
                      else st)
                  | _ => Except.error "interface conversion: Range is not StringInterval"
                else
                  match getR st v with
                  | some (RangeV.int i) =>
                      pure (if !i.IsKnown then
                        setR st v (some (RangeV.int (InfinityFor v)))
                      else st)
                  | _ => Except.error "interface conversion: Range is not IntInterval"
            | Ty.chan =>
                match getR st v with
                | some (RangeV.chan ci) =>
                    pure (if !ci.IsKnown then
                      setR st v (some (RangeV.chan
                        ⟨NewIntInterval (NewZ 0) PInfinity⟩))
                    else st)
                | _ => Except.error "interface conversion: Range is not ChannelInterval"
            | Ty.other => pure st
        | none => pure st
      match constrOf g k with
      | some (cid, c) => do
          let ev ← evalConstr st cid c
          pure (setR st c.Y ev)
      | none => pure st

/-- The multi-vertex-SCC branch of `Graph.Solve` (vrp.go lines 503–542):
widening from the entries, future resolution, the integer-only fallback
to the typed top, then narrowing from the actives. -/
def solveMulti (fuel : Nat) (st : SState) (g : Graph) (ord : List VKey)
    (scc : Nat) (consts : List Z) : Except String SState := do
  let uses ← usesOf g scc
  let r ← entriesOf st g ord scc
  let st ← widenLoop fuel r.1 uses r.2 consts
  let st := resolveFuturesOf st g scc
  let st := (sccMembers g ord scc).foldl (fun st k =>
    match valOf g k with
    | some v =>
        match getR st v with
        | some (RangeV.int i) =>
            if !i.IsKnown then setR st v (some (RangeV.int (InfinityFor v)))
            else st
        | _ => st
    | none => st) st
  narrowLoop fuel st uses (activesOf g ord scc) consts

/-- The cross-SCC propagation of `Graph.Solve` (vrp.go lines 544–560). -/
def propagate (st : SState) (g : Graph) (scc : Nat) :
    Except String SState :=
  (sccEdgesOf g scc).foldlM (fun st e =>
    if e.control then pure st
    else
      match afindK e.efrom g.sccOf, afindK e.eto g.sccOf with
      | some fs, some ts =>
          if fs = ts then pure st
          else do
            let st ← match constrOf g e.eto with
              | some (cid, c) => do
                  let ev ← evalConstr st cid c
                  pure (setR st c.Y ev)
              | none => pure st
            match constrOf g e.eto with
            | some (cid, c) =>
                if c.isFuture &&
                    !((afind cid st.fI).getD EmptyIntInterval).IsKnown then
                  pure { st with fresolved := asetNat st.fresolved cid false }
                else pure st
            | none => pure st
      | _, _ => Except.error "runtime error: vertex missing SCC") st

/-- The jump-set gathering of `Graph.Solve` (vrp.go lines 456–472): for
every integer `*ssa.Const` vertex add `z`, `z+1`, `z−1`. -/
def gatherConsts (g : Graph) (ord : List VKey) : List Z :=
  ord.foldl (fun acc k =>
    match valOf g k with
    | some v =>
        match v.form with
        | Form.konst cv =>
            match v.ty with
            | Ty.basic bk =>
                if bk.isInteger then
                  let z := constantToZ cv
                  acc ++ [z, z.Add (NewZ 1), z.Sub (NewZ 1)]
                else acc
            | _ => acc
        | _ => acc
    | none => acc) []

/-- Modelled from the spec: `sort.Sort(Zs(consts))` sorts the jump set
in increasing order (§4.F: "Sorted in increasing order for lower-bound
search"; the `Zs` sort interface lives in the absent int.go). -/
def insertZ (z : Z) : List Z → List Z
  | [] => [z]
  | c :: cs => if z.Cmp c ≤ 0 then z :: c :: cs else c :: insertZ z cs

def sortZs (l : List Z) : List Z := l.foldr insertZ []

/-- The final clamping pass of `Graph.Solve` (vrp.go lines 563–592):
every stored `IntInterval` is clamped against its value's basic type; a
non-basic type would fail the source's unchecked type assertion. -/
def clampAll (g : Graph) (ranges : Ranges) : Except String Ranges :=
  ranges.foldlM (fun acc p =>
    match p.2 with
    | some (RangeV.int i) =>
        match afind p.1 g.vals with
        | some v =>
            match v.ty with
            | Ty.basic bk =>
                pure (rangesSet acc p.1 (some (RangeV.int (clampEntry bk i))))
            | _ => Except.error "interface conversion: Type is not a Basic type"
        | none => Except.error "range entry for unknown value"
    | _ => pure acc) ranges

/-- One SCC iteration of the main loop of `Graph.Solve` (vrp.go lines
475–561): the singleton or multi-vertex branch, then propagation. -/
def solveSCC (fuel : Nat) (g : Graph) (ord : List VKey) (consts : List Z)
    (st : SState) (scc : Nat) : Except String SState := do
  let st ← if (sccMembers g ord scc).length = 1 then
      solveSingleton st g ord scc
    else solveMulti fuel st g ord scc consts
  propagate st g scc

/-- `Graph.Solve` (vrp.go line 455): gather and sort the jump set, walk
the SCCs in increasing id order, then clamp. -/
def Solve (g : Graph) (ord : List VKey) (fuel : Nat) :
    Except String Ranges := do
  let consts := sortZs (gatherConsts g ord)
  let st ← (List.range g.numSCCs).foldlM
    (solveSCC fuel g ord consts) (⟨[], [], []⟩ : SState)
  clampAll g st.ranges

/-! ### The graph builder (`BuildGraph`, vrp.go line 265) -/

/-- The condition of the `*ssa.If` dominating a σ-node, as far as the
builder inspects it: either a binary comparison or some other boolean
value (`Cond.(*ssa.BinOp)` fails on the latter). -/
inductive CondV where
  | binop (op : Token) (a b : Val)
  | nonBinop
deriving DecidableEq, Repr

/-- The instruction forms exercised by the verified claims: φ-nodes,
σ-nodes (carrying the condition of their dominating `If`) and channel
`ChangeType`.  The remaining arms of the builder's switch (`Convert`,
`Call`, `BinOp`, `Slice`, `MakeChan`) emit independent constraints and
are not needed by any claim. -/
inductive Instr where
  | phi (y : Val) (vars : List Val)
  | sigma (y : Val) (x : Val) (branch : Bool) (cond : CondV)
  | changeType (y : Val) (x : Val)
deriving DecidableEq, Repr

abbrev Block := List Instr

abbrev Func := List Block

/-- `ins.Operands` for the embedded instruction forms (φ reads its
variables, σ and `ChangeType` read their `X`). -/
def instrOperands : Instr → List Val
  | Instr.phi _ vars => vars
  | Instr.sigma _ x _ _ => [x]
  | Instr.changeType _ x => [x]

/-- The first pass of `BuildGraph` (vrp.go lines 273–299): emit a point
interval for the first sighting of every constant operand. -/
def scanConsts (f : Func) : List Constr :=
  (f.foldl (fun acc block =>
    block.foldl (fun acc ins =>
      (instrOperands ins).foldl (fun acc op =>
        match op.form with
        | Form.konst cv =>
            if acc.1.contains op.id then acc
            else
              let seen := acc.1 ++ [op.id]
              match cv with
              | none => (seen, acc.2)
              | some (CVal.int n) =>
                  (seen, acc.2 ++ [Constr.intInterval
                    (NewIntInterval (NewZ n) (NewZ n)) op])
              | some (CVal.str s) =>
                  (seen, acc.2 ++ [Constr.stringInterval
                    (NewIntInterval (NewZ (s.utf8ByteSize : Int))
                      (NewZ (s.utf8ByteSize : Int))) op])
        | _ => acc) acc) acc) (([] : List Nat), ([] : List Constr))).2

/-- The per-instruction constraint emission of `BuildGraph` (vrp.go
lines 300–423) for the embedded instruction forms.  In the σ arm the
source calls `cond.Operands(nil)` on the result of the type assertion
`Cond.(*ssa.BinOp)` *before* checking its `ok` flag, so a σ-node whose
predicate is not a binary comparison dereferences a nil `*ssa.BinOp`. -/
def instrConstraint : Instr → Except String (Option Constr)
  | Instr.phi y vars =>
      if isSupportedType y.ty then Except.ok (some (Constr.phi vars y))
      else Except.ok none
  | Instr.sigma y x branch cond =>
      match cond with
      | CondV.nonBinop =>
          Except.error "runtime error: invalid memory address or nil pointer dereference"
      | CondV.binop op a b =>
          match y.ty with
          | Ty.basic bk =>
              if bk.isInteger then
                Except.ok (sigmaInteger branch y x op a b)
              else if bk.isString then
                Except.ok (sigmaString branch y op a b)
              else Except.ok none
          | _ => Except.ok none
  | Instr.changeType y x =>
      match x.ty with
      | Ty.chan => Except.ok (some (Constr.channelChangeType x y))
      | _ => Except.ok none

/-- `Graph.AddEdge` (vrp.go line 863) bookkeeping: create missing
vertices (source first, then target) and append the edge. -/
def ensureVal (g : Graph) (v : Val) : Graph :=
  if g.vertices.contains (VKey.val v.id) then g
  else { g with vertices := g.vertices ++ [VKey.val v.id],
                vals := g.vals ++ [(v.id, v)] }

def ensureConstr (g : Graph) (cid : Nat) : Graph :=
  if g.vertices.contains (VKey.constr cid) then g
  else { g with vertices := g.vertices ++ [VKey.constr cid] }

def addEdgeVC (g : Graph) (v : Val) (cid : Nat) (ctrl : Bool) : Graph :=
  let g := ensureVal g v
  let g := ensureConstr g cid
  { g with edges := g.edges ++ [⟨VKey.val v.id, VKey.constr cid, ctrl⟩] }

def addEdgeCV (g : Graph) (cid : Nat) (v : Val) (ctrl : Bool) : Graph :=
  let g := ensureConstr g cid
  let g := ensureVal g v
  { g with edges := g.edges ++ [⟨VKey.constr cid, VKey.val v.id, ctrl⟩] }

/-- `BuildGraph` (vrp.go line 265): the constant pass, the instruction
pass, then edge installation — `Operand → C` (data), `Future → C`
(control) and `C → Y` (data) — in constraint order. -/
def BuildGraph (f : Func) : Except String Graph := do
  let cs0 := scanConsts f
  let cs ← f.foldlM (fun cs block =>
    block.foldlM (fun cs ins => do
      match ← instrConstraint ins with
      | some c => pure (cs ++ [c])
      | none => pure cs) cs) cs0
  let g0 : Graph := ⟨[], [], cs.enum, [], [], 0⟩
  let g := cs.enum.foldl (fun g p =>
    let (cid, c) := p
    let g := c.Operands.foldl (fun g op => addEdgeVC g op cid false) g
    let g := c.Futures.foldl (fun g op => addEdgeVC g op cid true) g
    addEdgeCV g cid c.Y false) g0
  Except.ok g

/-- `BuildGraph` followed by `FindSCCs` and `Solve`, with the Go map
iteration order made explicit as `ord`. -/
def runVRP (f : Func) (ord : List VKey) : Except String Ranges := do
  let g ← BuildGraph f
  let g ← FindSCCs g ord 1000
  Solve g ord 1000

/-- `Graph.Range` (vrp.go line 685): delegates to `ranges.Get`. -/
def GraphRange (st : SState) (x : Option Val) : Option RangeV :=
  Ranges.Get st.ranges x

/-! ### Predicates for the verification of `FindSCCs`

A vertex is visited when its Tarjan index is non-zero (the Go zero
value marks unvisited vertices), and done when it has been popped and
assigned a provisional SCC number. -/

def visitedT (st : TState) (x : VKey) : Prop := tIndex st x ≠ 0

def doneT (st : TState) (x : VKey) : Prop := (afindK x st.sccOfT).isSome = true

def sccT (st : TState) (x : VKey) : Nat := (afindK x st.sccOfT).getD 0

/-- The state invariant of Tarjan's algorithm, as maintained by
`strongconnect`: the stack holds exactly the visited-but-unassigned
vertices in strictly decreasing index order, indexes of visited
vertices are positive and below the counter, assigned SCC numbers are
below the SCC counter, lowlinks never exceed indexes, and — the
ordering property being established — every edge leaving an assigned
vertex leads to an assigned vertex with a smaller-or-equal SCC
number. -/
structure WFT (g : Graph) (st : TState) : Prop where
  index_pos : 1 ≤ st.index
  stack_visited : ∀ x ∈ st.stack, visitedT st x
  stack_not_done : ∀ x ∈ st.stack, ¬ doneT st x
  not_done_mem : ∀ x, visitedT st x → ¬ doneT st x → x ∈ st.stack
  onstack_iff : ∀ x, tOnstack st x = true ↔ x ∈ st.stack
  stack_sorted : List.Pairwise (fun a b => tIndex st b < tIndex st a) st.stack
  visited_lt : ∀ x, visitedT st x → tIndex st x < st.index
  done_scc_lt : ∀ x, doneT st x → sccT st x < st.scc
  done_visited : ∀ x, doneT st x → visitedT st x
  low_le_index : ∀ x, visitedT st x → tLow st x ≤ tIndex st x ∧ 1 ≤ tLow st x
  edge_inv : ∀ u, doneT st u → ∀ e ∈ g.edges, e.efrom = u →
      doneT st e.eto ∧ sccT st e.eto ≤ sccT st u

/-- What a `strongconnect` call may do to the pre-existing state:
counters grow, visited vertices keep their index and lowlink, assigned
vertices keep their SCC number, and the old stack survives as a suffix
below freshly visited vertices. -/
structure MonoT (st st' : TState) : Prop where
  index_le : st.index ≤ st'.index
  scc_le : st.scc ≤ st'.scc
  visited_mono : ∀ x, visitedT st x → visitedT st' x
  index_eq : ∀ x, visitedT st x → tIndex st' x = tIndex st x
  low_eq : ∀ x, visitedT st x → tLow st' x = tLow st x
  done_mono : ∀ x, doneT st x → doneT st' x
  scc_eq : ∀ x, doneT st x → sccT st' x = sccT st x
  stack_ext : ∃ xs, st'.stack = xs ++ st.stack ∧ ∀ x ∈ xs, ¬ visitedT st x

/-- The postcondition of `strongconnect g v`: the invariant and
monotonicity hold, `v` is visited, fresh vertices got indexes at or
above the old counter, and either `v`'s SCC was popped (the stack is
restored) or `v` sits on the stack with a lowlink strictly below its
index witnessed by an older stack vertex; every freshly pushed vertex
that remains on the stack has all its out-edges resolved to an
assigned target or to a stack target indexed at or above the call's
lowlink. -/
structure PostT (g : Graph) (st : TState) (v : VKey) (st' : TState) :
    Prop where
  wf : WFT g st'
  mono : MonoT st st'
  visited_v : visitedT st' v
  new_ge : ∀ x, ¬ visitedT st x → visitedT st' x →
      st.index ≤ tIndex st' x
  done_or : (doneT st' v ∧ st'.stack = st.stack ∧
      tLow st' v = tIndex st' v) ∨
    (¬ doneT st' v ∧ v ∈ st'.stack ∧ tLow st' v < tIndex st' v ∧
      ∃ u ∈ st.stack, tIndex st' u = tLow st' v)
  edge_proc : ∀ x ∈ st'.stack, x ∉ st.stack → ∀ e ∈ g.edges,
      e.efrom = x → doneT st' e.eto ∨
        (e.eto ∈ st'.stack ∧ tLow st' v ≤ tIndex st' e.eto)

/-- The invariant of the successor loop inside `strongconnect g v`:
`st` is the state before the call (in which `v` is unvisited), `cur`
the current state, and `es` the already processed successor edges. -/
structure LInvT (g : Graph) (st : TState) (v : VKey)
    (es : List EdgeE) (cur : TState) : Prop where
  wf : WFT g cur
  mono : MonoT st cur
  idx1 : st.index + 1 ≤ cur.index
  v_mem : v ∈ cur.stack
  v_index : tIndex cur v = st.index
  fresh_ge : ∀ x, ¬ visitedT st x → visitedT cur x →
      st.index ≤ tIndex cur x
  low_wit : tLow cur v = tIndex cur v ∨
    (tLow cur v < tIndex cur v ∧
      ∃ u ∈ st.stack, tIndex cur u = tLow cur v)
  proc_res : ∀ x ∈ cur.stack, x ∉ st.stack → x ≠ v → ∀ e ∈ g.edges,
      e.efrom = x → doneT cur e.eto ∨
        (e.eto ∈ cur.stack ∧ tLow cur v ≤ tIndex cur e.eto)
  proc_done : ∀ e ∈ es, doneT cur e.eto ∨
    (e.eto ∈ cur.stack ∧ tLow cur v ≤ tIndex cur e.eto)

/-- The state right after `strongconnect` pushes `v` (vrp.go lines
897–902). -/
def stPush (st : TState) (v : VKey) : TState :=
  { st with
    indexOf := asetK v st.index st.indexOf
    lowlink := asetK v st.index st.lowlink
    index := st.index + 1
    stack := v :: st.stack
    onstack := asetK v true st.onstack }

/-- A lowlink update of `v` (vrp.go lines 909–911 and 914–916). -/
def stLow (st : TState) (v : VKey) (n : Nat) : TState :=
  { st with lowlink := asetK v n st.lowlink }

/-- The state after the pop loop of `strongconnect` on root `v`
(vrp.go lines 920–932). -/
def stPop (st : TState) (v : VKey) : TState :=
  { st with
    stack := (popUntil v st.scc st.stack st.onstack st.sccOfT).1
    onstack := (popUntil v st.scc st.stack st.onstack st.sccOfT).2.1
    sccOfT := (popUntil v st.scc st.stack st.onstack st.sccOfT).2.2
    scc := st.scc + 1 }

/-- A two-vertex, one-edge fixture exercising `FindSCCs`. -/
def gC4 : Graph :=
  { vertices := [VKey.val 0, VKey.val 1]
    vals := []
    constrs := []
    edges := [⟨VKey.val 0, VKey.val 1, false⟩]
    sccOf := []
    numSCCs := 0 }

def ordC4 : List VKey := [VKey.val 0, VKey.val 1]

/-- The graph `FindSCCs` returns on the fixture. -/
def gC4' : Graph :=
  { vertices := [VKey.val 0, VKey.val 1]
    vals := []
    constrs := []
    edges := [⟨VKey.val 0, VKey.val 1, false⟩]
    sccOf := [(VKey.val 0, 0), (VKey.val 1, 1)]
    numSCCs := 2 }

/-! ### Order facts about the extended integers -/

theorem Z.cmp_antisymm (a b : Z) : a.Cmp b = -(b.Cmp a) := by
  cases a <;> cases b <;> simp only [Z.Cmp] <;> (try split_ifs) <;> omega

theorem Z.cmp_cases (a b : Z) : a.Cmp b = -1 ∨ a.Cmp b = 0 ∨ a.Cmp b = 1 := by
  cases a <;> cases b <;> simp only [Z.Cmp] <;> (try split_ifs) <;> simp

theorem Z.cmp_le_trans {a b c : Z} (h1 : a.Cmp b ≤ 0) (h2 : b.Cmp c ≤ 0) :
    a.Cmp c ≤ 0 := by
  cases a <;> cases b <;> cases c <;> simp only [Z.Cmp] at * <;>
    (try split_ifs at *) <;> omega

theorem Z.cmp_le_lt_trans {a b c : Z} (h1 : a.Cmp b ≤ 0)
    (h2 : b.Cmp c = -1) : a.Cmp c = -1 := by
  cases a <;> cases b <;> cases c <;> simp only [Z.Cmp] at * <;>
    (try split_ifs at *) <;> omega

theorem Z.cmp_lt_le_trans {a b c : Z} (h1 : a.Cmp b = -1)
    (h2 : b.Cmp c ≤ 0) : a.Cmp c = -1 := by
  cases a <;> cases b <;> cases c <;> simp only [Z.Cmp] at * <;>
    (try split_ifs at *) <;> omega

theorem Z.cmp_le_of_not_lt {a b : Z} (h : ¬ a.Cmp b = -1) : b.Cmp a ≤ 0 := by
  have ha := Z.cmp_antisymm a b
  rcases Z.cmp_cases b a with h0 | h0 | h0 <;> omega

theorem Z.cmp_not_lt_of_le {a b : Z} (h : a.Cmp b ≤ 0) : ¬ b.Cmp a = -1 := by
  have ha := Z.cmp_antisymm a b
  rcases Z.cmp_cases b a with h0 | h0 | h0 <;> omega

/-! ### C1: the lower jump-set anchor taken by widen -/

/-- The anchor described by the claim: the largest element of `consts`
that is `≤ l`, or `−∞` when no element is `≤ l`. -/
def largestLE (consts : List Z) (l : Z) : Z :=
  (consts.filter (fun co => co.Cmp l ≤ 0)).foldl Z.maxz NInfinity

/-- The anchor the source actually computes on an ascending `consts`:
the smallest element of `consts` that is `≤ l`, or `−∞` when no element
is `≤ l`. -/
def smallestLE (consts : List Z) (l : Z) : Z :=
  match consts.filter (fun co => co.Cmp l ≤ 0) with
  | [] => NInfinity
  | c :: cs => cs.foldl Z.minz c

theorem Z.minz_eq_left {c x : Z} (h : c.Cmp x ≤ 0) : Z.minz c x = c := by
  simp [Z.minz, h]

theorem foldl_minz_eq_init (xs : List Z) (c : Z)
    (h : ∀ x ∈ xs, c.Cmp x ≤ 0) : xs.foldl Z.minz c = c := by
  induction xs with
  | nil => rfl
  | cons x xs ih =>
      have hx : c.Cmp x ≤ 0 := h x (by simp)
      simp only [List.foldl_cons, Z.minz_eq_left hx]
      exact ih (fun y hy => h y (by simp [hy]))

/-- On an ascending `consts` the first element `≤ l` is the smallest
element `≤ l`. -/
theorem nlcOf_eq_smallestLE (consts : List Z) (l : Z)
    (hs : List.Pairwise (fun a b : Z => a.Cmp b ≤ 0) consts) :
    nlcOf consts l = smallestLE consts l := by
  induction consts with
  | nil => rfl
  | cons c cs ih =>
      rcases List.pairwise_cons.mp hs with ⟨hc, hcs⟩
      by_cases h : c.Cmp l ≤ 0
      · have hp : decide (c.Cmp l ≤ 0) = true := by simpa using h
        have hfilter : ∀ x ∈ cs.filter (fun co => decide (co.Cmp l ≤ 0)),
            c.Cmp x ≤ 0 := by
          intro x hx
          exact hc x (List.mem_of_mem_filter hx)
        simp only [nlcOf, smallestLE, List.find?, List.filter, hp]
        exact (foldl_minz_eq_init _ _ hfilter).symm
      · have hp : decide (c.Cmp l ≤ 0) = false := by simpa using h
        simp only [nlcOf, smallestLE, List.find?, List.filter, hp] at ih ⊢
        exact ih hcs

theorem nlcOf_le (consts : List Z) (l : Z) : (nlcOf consts l).Cmp l ≤ 0 := by
  unfold nlcOf
  cases hfind : consts.find? (fun co => co.Cmp l ≤ 0) with
  | none =>
      simp only [hfind]
      cases l <;> simp [NInfinity, Z.Cmp]
  | some co =>
      simp only [hfind]
      have := List.find?_some hfind
      simpa using this

theorem nucOf_ge (consts : List Z) (u : Z) : u.Cmp (nucOf consts u) ≤ 0 := by
  unfold nucOf
  cases hfind : consts.find? (fun co => co.Cmp u ≥ 0) with
  | none =>
      simp only [hfind]
      cases u <;> simp [PInfinity, Z.Cmp]
  | some co =>
      simp only [hfind]
      have h := List.find?_some hfind
      have h2 : 0 ≤ co.Cmp u := by simpa using h
      have := Z.cmp_antisymm u co
      omega

theorem NewIntInterval_of_le {l u : Z} (h : ¬ u.Cmp l = -1) :
    NewIntInterval l u = ⟨true, l, u⟩ := by
  simp [NewIntInterval, h]

theorem Z.cmp_fin_fin (a b : Int) :
    (Z.fin a).Cmp (Z.fin b) = if a < b then -1 else if a = b then 0 else 1 :=
  rfl

/-- C1, counterexample.  With the single integer constant 2 the sorted
jump multiset is `[1, 2, 3]`.  A widening step with current range
`[3, 3]` and newly evaluated range `[2, 2]` (so `ni.Lower < oi.Lower`)
writes `1` as the new lower bound, whereas the largest element of the
multiset that is `≤ ni.Lower = 2` is `2`: the claim's description of the
written lower bound is false. -/
theorem widen_lower_anchor_not_largest :
    (widenIntInterval [Z.fin 1, Z.fin 2, Z.fin 3]
        (NewIntInterval (Z.fin 3) (Z.fin 3))
        (NewIntInterval (Z.fin 2) (Z.fin 2))).1.Lower = Z.fin 1 ∧
    (widenIntInterval [Z.fin 1, Z.fin 2, Z.fin 3]
        (NewIntInterval (Z.fin 3) (Z.fin 3))
        (NewIntInterval (Z.fin 2) (Z.fin 2))).2 = true ∧
    largestLE [Z.fin 1, Z.fin 2, Z.fin 3] (Z.fin 2) = Z.fin 2 ∧
    (NewIntInterval (Z.fin 2) (Z.fin 2)).IsKnown = true ∧
    (NewIntInterval (Z.fin 3) (Z.fin 3)).IsKnown = true ∧
    (NewIntInterval (Z.fin 2) (Z.fin 2)).Lower.Cmp
      (NewIntInterval (Z.fin 3) (Z.fin 3)).Lower = -1 ∧
    (Z.fin 1 : Z) ≠ Z.fin 2 := by
  decide

/-- C1, amended: when `ni` and the current range `oi` are known (and
well-formed) and `ni.Lower < oi.Lower`, the widening step changes the
range and the new lower bound it writes is the *smallest* element of the
ascending `consts` that is `≤ ni.Lower`, or `−∞` when no element is
`≤ ni.Lower`. -/
theorem widen_lower_anchor_smallest (consts : List Z) (oi ni : IntInterval)
    (hs : List.Pairwise (fun a b : Z => a.Cmp b ≤ 0) consts)
    (hni : ni.IsKnown = true) (hoi : oi.IsKnown = true)
    (hwfni : ¬ ni.Upper.Cmp ni.Lower = -1)
    (hwfoi : ¬ oi.Upper.Cmp oi.Lower = -1)
    (hlt : ni.Lower.Cmp oi.Lower = -1) :
    (widenIntInterval consts oi ni).2 = true ∧
    (widenIntInterval consts oi ni).1.Lower = smallestLE consts ni.Lower := by
  have hnlc_le : (nlcOf consts ni.Lower).Cmp ni.Lower ≤ 0 :=
    nlcOf_le consts ni.Lower
  have hni_wf : ni.Lower.Cmp ni.Upper ≤ 0 := Z.cmp_le_of_not_lt hwfni
  have hoi_wf : oi.Lower.Cmp oi.Upper ≤ 0 := Z.cmp_le_of_not_lt hwfoi
  have hrw := nlcOf_eq_smallestLE consts ni.Lower hs
  by_cases hup : ni.Upper.Cmp oi.Upper = 1
  · have hnuc : ni.Upper.Cmp (nucOf consts ni.Upper) ≤ 0 :=
      nucOf_ge consts ni.Upper
    have hle : (nlcOf consts ni.Lower).Cmp (nucOf consts ni.Upper) ≤ 0 :=
      Z.cmp_le_trans (Z.cmp_le_trans hnlc_le hni_wf) hnuc
    have hk := NewIntInterval_of_le (Z.cmp_not_lt_of_le hle)
    rw [hrw] at hk
    simp [widenIntInterval, hni, hoi, hlt, hup, hk, hrw]
  · have hlt2 : (nlcOf consts ni.Lower).Cmp oi.Upper = -1 :=
      Z.cmp_lt_le_trans (Z.cmp_le_lt_trans hnlc_le hlt) hoi_wf
    have hle2 : (nlcOf consts ni.Lower).Cmp oi.Upper ≤ 0 := by omega
    have hk := NewIntInterval_of_le (Z.cmp_not_lt_of_le hle2)
    rw [hrw] at hk
    simp [widenIntInterval, hni, hoi, hlt, hup, hk, hrw]

/-- C3: evaluating `sigmaIntegerConst` at the failing inputs of the
claim.  For the σ-node reached along the false edge (`Branch = false`)
of `x ≤ 5` the emitted intersection interval is `[5, +∞)`, not the
`[6, +∞)` the claim states, and for the false edge of `x ≥ 5` it is
`(−∞, 5]`, not `(−∞, 4]`: the source keys the ±1 strictness adjustment
on `cond.Op` (the original token) although the operator has been
inverted for the false edge. -/
theorem sigmaIntegerConst_false_edge_eval :
    (sigmaIntegerConst false ⟨2, Ty.basic BasicKind.int, Form.plain⟩
        Token.LEQ ⟨0, Ty.basic BasicKind.int, Form.plain⟩
        ⟨1, Ty.basic BasicKind.int, Form.konst (some (CVal.int 5))⟩ =
      some (Constr.intIntersection ⟨0, Ty.basic BasicKind.int, Form.plain⟩
        (NewIntInterval (Z.fin 5) PInfinity)
        ⟨2, Ty.basic BasicKind.int, Form.plain⟩)) ∧
    (sigmaIntegerConst false ⟨2, Ty.basic BasicKind.int, Form.plain⟩
        Token.GEQ ⟨0, Ty.basic BasicKind.int, Form.plain⟩
        ⟨1, Ty.basic BasicKind.int, Form.konst (some (CVal.int 5))⟩ =
      some (Constr.intIntersection ⟨0, Ty.basic BasicKind.int, Form.plain⟩
        (NewIntInterval NInfinity (Z.fin 5))
        ⟨2, Ty.basic BasicKind.int, Form.plain⟩)) ∧
    NewIntInterval (Z.fin 5) PInfinity ≠ NewIntInterval (Z.fin 6) PInfinity ∧
    NewIntInterval NInfinity (Z.fin 5) ≠ NewIntInterval NInfinity (Z.fin 4) := by
  decide

/-- C8, counterexample: a signed `int` range whose upper bound is `+∞`
and whose lower bound `−2^64` is far outside the signed 64-bit range is
left untouched by the final clamping pass (the whole signed check sits
inside `i.Upper != PInfinity`), although the claim requires it to be
replaced by `(−∞, +∞)`. -/
theorem clampEntry_pinf_upper_not_clamped :
    clampEntry BasicKind.int ⟨true, Z.fin (-(2 ^ 64)), Z.pinf⟩ =
      ⟨true, Z.fin (-(2 ^ 64)), Z.pinf⟩ ∧
    (⟨true, Z.fin (-(2 ^ 64)), Z.pinf⟩ : IntInterval) ≠
      NewIntInterval NInfinity PInfinity ∧
    (-(2 : Int) ^ 64 < -(2 ^ 63)) := by
  refine ⟨rfl, by decide, by norm_num⟩

/-- C8, amended: the final clamping of a signed basic kind applies only
when the upper bound is finite; it then replaces the whole range by
`(−∞, +∞)` exactly when `Upper > 2^(w−1) − 1` or `Lower < −2^(w−1)`
(with `w` the type's bit width), and ranges of unsigned kinds, as well
as signed ranges with `Upper = +∞`, are never modified. -/
theorem clampEntry_amended (k : BasicKind) (i : IntInterval) :
    (k.isUnsigned = true → clampEntry k i = i) ∧
    (i.Upper = PInfinity → clampEntry k i = i) ∧
    (k.isUnsigned = false → ∀ u : Int, i.Upper = Z.fin u →
      ((2 ^ (k.sizeof * 8 - 1).toNat ≤ u →
          clampEntry k i = NewIntInterval NInfinity PInfinity) ∧
       (u < 2 ^ (k.sizeof * 8 - 1).toNat →
         ((i.Lower = NInfinity →
             clampEntry k i = NewIntInterval NInfinity PInfinity) ∧
          (∀ l : Int, i.Lower = Z.fin l →
            (l < -(2 ^ (k.sizeof * 8 - 1).toNat) →
               clampEntry k i = NewIntInterval NInfinity PInfinity) ∧
            (-(2 ^ (k.sizeof * 8 - 1).toNat : Int) ≤ l →
               clampEntry k i = i)))))) := by
  refine ⟨?_, ?_, ?_⟩
  · intro hu
    simp [clampEntry, hu]
  · intro hp
    simp [clampEntry, hp, PInfinity]
  · intro hu u hup
    have hne : ¬ i.Upper = PInfinity := by
      rw [hup]; simp [PInfinity]
    constructor
    · intro hbig
      have hcmp : i.Upper.Cmp (NewZ (2 ^ (k.sizeof * 8 - 1).toNat - 1)) = 1 := by
        rw [hup]; simp only [NewZ, Z.cmp_fin_fin]; split_ifs <;> omega
      simp [clampEntry, hu, hne, hcmp, -Int.pred_toNat]
    · intro hsmall
      have hcmp : ¬ i.Upper.Cmp (NewZ (2 ^ (k.sizeof * 8 - 1).toNat - 1)) = 1 := by
        rw [hup]; simp only [NewZ, Z.cmp_fin_fin]
        split_ifs <;> first | exact not_false | omega
      constructor
      · intro hlo
        have hcmp2 : i.Lower.Cmp (NewZ (-(2 ^ (k.sizeof * 8 - 1).toNat))) = -1 := by
          rw [hlo]; rfl
        simp [clampEntry, hu, hne, hcmp, hcmp2, -Int.pred_toNat]
      · intro l hlo
        constructor
        · intro hout
          have hcmp2 : i.Lower.Cmp (NewZ (-(2 ^ (k.sizeof * 8 - 1).toNat))) = -1 := by
            rw [hlo]; simp only [NewZ, Z.cmp_fin_fin]; split_ifs <;> omega
          simp [clampEntry, hu, hne, hcmp, hcmp2, -Int.pred_toNat]
        · intro hin
          have hcmp2 : ¬ i.Lower.Cmp (NewZ (-(2 ^ (k.sizeof * 8 - 1).toNat))) = -1 := by
            rw [hlo]; simp only [NewZ, Z.cmp_fin_fin]
            split_ifs <;> first | exact not_false | omega
          simp [clampEntry, hu, hne, hcmp, hcmp2, -Int.pred_toNat]

/-- C8, witness: a signed `int` range `[−2^64, 0]` (finite upper bound,
lower bound out of range) is replaced by `(−∞, +∞)`, and an unsigned
range is untouched. -/
theorem clampEntry_amended_witness :
    clampEntry BasicKind.int ⟨true, Z.fin (-(2 ^ 64)), Z.fin 0⟩ =
      NewIntInterval NInfinity PInfinity ∧
    clampEntry BasicKind.uint64 ⟨true, Z.fin 0, Z.fin (2 ^ 70)⟩ =
      ⟨true, Z.fin 0, Z.fin (2 ^ 70)⟩ := by
  constructor
  · exact ((((clampEntry_amended BasicKind.int
      ⟨true, Z.fin (-(2 ^ 64)), Z.fin 0⟩).2.2 rfl 0 rfl).2 (by decide)).2
      (-(2 ^ 64)) rfl).1 (by decide)
  · exact (clampEntry_amended BasicKind.uint64
      ⟨true, Z.fin 0, Z.fin (2 ^ 70)⟩).1 rfl

/-- C9, counterexample: reading a missing bool-typed value from the
range store returns the empty `IntInterval`, not nil: the `Basic` arm of
`Ranges.Get` defaults every non-string basic kind — including bool and
float — to `IntInterval{}`. -/
theorem rangesGet_bool_default_not_nil :
    Ranges.Get [] (some ⟨0, Ty.basic BasicKind.bool, Form.plain⟩) =
      some (RangeV.int EmptyIntInterval) ∧
    Ranges.Get [] (some ⟨1, Ty.basic BasicKind.float64, Form.plain⟩) =
      some (RangeV.int EmptyIntInterval) ∧
    some (RangeV.int EmptyIntInterval) ≠ (none : Option RangeV) := by
  decide

/-- C9, amended: for a non-nil value absent from the store, `Get`
returns the empty `IntInterval` for every non-string basic kind
(including bool and float), the empty `StringInterval` for string kinds,
the empty `ChannelInterval` for channel types, and nil only for
non-basic non-channel types. -/
theorem rangesGet_typed_defaults (r : Ranges) (v : Val)
    (h : rangesLookup r v.id = none) :
    (∀ k, v.ty = Ty.basic k → k.isString = false →
        Ranges.Get r (some v) = some (RangeV.int EmptyIntInterval)) ∧
    (∀ k, v.ty = Ty.basic k → k.isString = true →
        Ranges.Get r (some v) = some (RangeV.str ⟨EmptyIntInterval⟩)) ∧
    (v.ty = Ty.chan → Ranges.Get r (some v) = some (RangeV.chan ⟨EmptyIntInterval⟩)) ∧
    (v.ty = Ty.other → Ranges.Get r (some v) = none) := by
  refine ⟨?_, ?_, ?_, ?_⟩
  · intro k hk hstr
    simp [Ranges.Get, h, hk, hstr]
  · intro k hk hstr
    simp [Ranges.Get, h, hk, hstr]
  · intro hk
    simp [Ranges.Get, h, hk]
  · intro hk
    simp [Ranges.Get, h, hk]

/-- C9, witness: the typed defaults at concrete missing values of each
shape, via the amended theorem. -/
theorem rangesGet_typed_defaults_witness :
    Ranges.Get [] (some ⟨0, Ty.basic BasicKind.bool, Form.plain⟩) =
      some (RangeV.int EmptyIntInterval) ∧
    Ranges.Get [] (some ⟨1, Ty.basic BasicKind.string, Form.plain⟩) =
      some (RangeV.str ⟨EmptyIntInterval⟩) ∧
    Ranges.Get [] (some ⟨2, Ty.chan, Form.plain⟩) =
      some (RangeV.chan ⟨EmptyIntInterval⟩) ∧
    Ranges.Get [] (some ⟨3, Ty.other, Form.plain⟩) = none := by
  refine ⟨?_, ?_, ?_, ?_⟩
  · exact (rangesGet_typed_defaults [] ⟨0, Ty.basic BasicKind.bool, Form.plain⟩
      rfl).1 BasicKind.bool rfl rfl
  · exact (rangesGet_typed_defaults [] ⟨1, Ty.basic BasicKind.string, Form.plain⟩
      rfl).2.1 BasicKind.string rfl rfl
  · exact (rangesGet_typed_defaults [] ⟨2, Ty.chan, Form.plain⟩ rfl).2.2.1 rfl
  · exact (rangesGet_typed_defaults [] ⟨3, Ty.other, Form.plain⟩ rfl).2.2.2 rfl

/-- C1, witness for the amended theorem at the jump multiset of the
integer constant 2. -/
theorem widen_lower_anchor_smallest_witness :
    (widenIntInterval [Z.fin 1, Z.fin 2, Z.fin 3]
        (NewIntInterval (Z.fin 3) (Z.fin 3))
        (NewIntInterval (Z.fin 2) (Z.fin 2))).2 = true ∧
    (widenIntInterval [Z.fin 1, Z.fin 2, Z.fin 3]
        (NewIntInterval (Z.fin 3) (Z.fin 3))
        (NewIntInterval (Z.fin 2) (Z.fin 2))).1.Lower =
      smallestLE [Z.fin 1, Z.fin 2, Z.fin 3] (Z.fin 2) := by
  have h := widen_lower_anchor_smallest [Z.fin 1, Z.fin 2, Z.fin 3]
    (NewIntInterval (Z.fin 3) (Z.fin 3)) (NewIntInterval (Z.fin 2) (Z.fin 2))
    (by decide) (by decide) (by decide) (by decide) (by decide) (by decide)
  simpa using h

/-- C10: `Ranges.Get` on a nil SSA value returns nil rather than
panicking or producing a typed default, and so does `Graph.Range`. -/
theorem rangesGet_nil_returns_nil (r : Ranges) (st : SState) :
    Ranges.Get r none = none ∧ GraphRange st none = none :=
  ⟨rfl, rfl⟩

/-- C2: evaluating `BuildGraph` at the failing input.  For a function
whose single instruction is a σ-node dominated by a conditional whose
predicate is a plain boolean value (not a `*ssa.BinOp`), `BuildGraph`
dereferences the nil `*ssa.BinOp` in `cond.Operands(nil)` — the call
sits before the `if !ok` skip — and panics instead of skipping the
constraint; with a genuine binary comparison the same function builds a
graph normally. -/
theorem buildGraph_sigma_nonbinop_panics :
    BuildGraph [[Instr.sigma ⟨1, Ty.basic BasicKind.int, Form.plain⟩
        ⟨0, Ty.basic BasicKind.int, Form.plain⟩ true CondV.nonBinop]] =
      Except.error
        "runtime error: invalid memory address or nil pointer dereference" ∧
    (BuildGraph [[Instr.sigma ⟨1, Ty.basic BasicKind.int, Form.plain⟩
        ⟨0, Ty.basic BasicKind.int, Form.plain⟩ true
        (CondV.binop Token.GTR ⟨0, Ty.basic BasicKind.int, Form.plain⟩
          ⟨2, Ty.basic BasicKind.int, Form.konst (some (CVal.int 5))⟩)]]).isOk
      = true := by
  constructor
  · rfl
  · rfl

/-- C6: evaluating the full pipeline at the failing input.  For the
function `c1 = φ(ch, c2); c2 = ChangeType(c1)` over a channel parameter
`ch`, the two channel values `c1, c2` and their constraints form one
multi-vertex SCC; `Solve` returns with the range of `c2` still the
empty `ChannelInterval` (widening, the integer-only fallback and
narrowing all skip channels), so `Ranges.Get` on the supported,
channel-typed vertex value `c2` is not known. -/
theorem solve_channel_multi_scc_stays_unknown :
    runVRP [[Instr.phi ⟨1, Ty.chan, Form.plain⟩
          [⟨0, Ty.chan, Form.plain⟩, ⟨2, Ty.chan, Form.plain⟩],
        Instr.changeType ⟨2, Ty.chan, Form.plain⟩ ⟨1, Ty.chan, Form.plain⟩]]
      [VKey.val 0, VKey.constr 0, VKey.val 2, VKey.val 1, VKey.constr 1] =
      Except.ok
        [(0, some (RangeV.chan ⟨⟨true, Z.fin 0, Z.pinf⟩⟩)),
         (1, some (RangeV.chan ⟨⟨true, Z.fin 0, Z.pinf⟩⟩))] ∧
    Ranges.Get
        [(0, some (RangeV.chan ⟨⟨true, Z.fin 0, Z.pinf⟩⟩)),
         (1, some (RangeV.chan ⟨⟨true, Z.fin 0, Z.pinf⟩⟩))]
        (some ⟨2, Ty.chan, Form.plain⟩) =
      some (RangeV.chan ⟨EmptyIntInterval⟩) ∧
    (RangeV.chan ⟨EmptyIntInterval⟩).IsKnown = false ∧
    isSupportedType Ty.chan = true ∧
    (do
      let g ← BuildGraph [[Instr.phi ⟨1, Ty.chan, Form.plain⟩
            [⟨0, Ty.chan, Form.plain⟩, ⟨2, Ty.chan, Form.plain⟩],
          Instr.changeType ⟨2, Ty.chan, Form.plain⟩
            ⟨1, Ty.chan, Form.plain⟩]]
      let g ← FindSCCs g
        [VKey.val 0, VKey.constr 0, VKey.val 2, VKey.val 1, VKey.constr 1] 1000
      Except.ok (afindK (VKey.val 2) g.sccOf,
        (sccMembers g
          [VKey.val 0, VKey.constr 0, VKey.val 2, VKey.val 1, VKey.constr 1]
          1).length) : Except String (Option Nat × Nat)) =
      Except.ok (some 1, 4) := by
  refine ⟨rfl, rfl, rfl, rfl, rfl⟩

/-- C7, counterexample: the same SSA function — `x = φ(s, y); y = φ(t, x)`
with integer constants `s = 0`, `t = 10` — run through
`BuildGraph; FindSCCs; Solve` under two different iteration orders of
the vertex map (both permutations of the vertex set) maps `y` to
`[−1, 10]` in one run and to `[0, 10]` in the other: `Solve` is not
deterministic across map iteration orders. -/
theorem solve_not_order_independent :
    runVRP [[Instr.phi ⟨2, Ty.basic BasicKind.int, Form.plain⟩
          [⟨0, Ty.basic BasicKind.int, Form.konst (some (CVal.int 0))⟩,
           ⟨3, Ty.basic BasicKind.int, Form.plain⟩],
        Instr.phi ⟨3, Ty.basic BasicKind.int, Form.plain⟩
          [⟨1, Ty.basic BasicKind.int, Form.konst (some (CVal.int 10))⟩,
           ⟨2, Ty.basic BasicKind.int, Form.plain⟩]]]
      [VKey.constr 0, VKey.val 0, VKey.constr 1, VKey.val 1, VKey.constr 2,
       VKey.val 3, VKey.val 2, VKey.constr 3] =
      Except.ok
        [(1, some (RangeV.int ⟨true, Z.fin 10, Z.fin 10⟩)),
         (3, some (RangeV.int ⟨true, Z.fin (-1), Z.fin 10⟩)),
         (0, some (RangeV.int ⟨true, Z.fin 0, Z.fin 0⟩)),
         (2, some (RangeV.int ⟨true, Z.fin (-1), Z.fin 10⟩))] ∧
    runVRP [[Instr.phi ⟨2, Ty.basic BasicKind.int, Form.plain⟩
          [⟨0, Ty.basic BasicKind.int, Form.konst (some (CVal.int 0))⟩,
           ⟨3, Ty.basic BasicKind.int, Form.plain⟩],
        Instr.phi ⟨3, Ty.basic BasicKind.int, Form.plain⟩
          [⟨1, Ty.basic BasicKind.int, Form.konst (some (CVal.int 10))⟩,
           ⟨2, Ty.basic BasicKind.int, Form.plain⟩]]]
      [VKey.constr 1, VKey.val 1, VKey.constr 0, VKey.val 0, VKey.constr 2,
       VKey.val 3, VKey.val 2, VKey.constr 3] =
      Except.ok
        [(0, some (RangeV.int ⟨true, Z.fin 0, Z.fin 0⟩)),
         (2, some (RangeV.int ⟨true, Z.fin 0, Z.fin 10⟩)),
         (1, some (RangeV.int ⟨true, Z.fin 10, Z.fin 10⟩)),
         (3, some (RangeV.int ⟨true, Z.fin 0, Z.fin 10⟩))] ∧
    Ranges.Get
        [(1, some (RangeV.int ⟨true, Z.fin 10, Z.fin 10⟩)),
         (3, some (RangeV.int ⟨true, Z.fin (-1), Z.fin 10⟩)),
         (0, some (RangeV.int ⟨true, Z.fin 0, Z.fin 0⟩)),
         (2, some (RangeV.int ⟨true, Z.fin (-1), Z.fin 10⟩))]
        (some ⟨3, Ty.basic BasicKind.int, Form.plain⟩) ≠
      Ranges.Get
        [(0, some (RangeV.int ⟨true, Z.fin 0, Z.fin 0⟩)),
         (2, some (RangeV.int ⟨true, Z.fin 0, Z.fin 10⟩)),
         (1, some (RangeV.int ⟨true, Z.fin 10, Z.fin 10⟩)),
         (3, some (RangeV.int ⟨true, Z.fin 0, Z.fin 10⟩))]
        (some ⟨3, Ty.basic BasicKind.int, Form.plain⟩) ∧
    (BuildGraph [[Instr.phi ⟨2, Ty.basic BasicKind.int, Form.plain⟩
          [⟨0, Ty.basic BasicKind.int, Form.konst (some (CVal.int 0))⟩,
           ⟨3, Ty.basic BasicKind.int, Form.plain⟩],
        Instr.phi ⟨3, Ty.basic BasicKind.int, Form.plain⟩
          [⟨1, Ty.basic BasicKind.int, Form.konst (some (CVal.int 10))⟩,
           ⟨2, Ty.basic BasicKind.int, Form.plain⟩]]]).map
      (fun g => decide (List.Perm g.vertices
          [VKey.constr 0, VKey.val 0, VKey.constr 1, VKey.val 1,
           VKey.constr 2, VKey.val 3, VKey.val 2, VKey.constr 3]) &&
        decide (List.Perm g.vertices
          [VKey.constr 1, VKey.val 1, VKey.constr 0, VKey.val 0,
           VKey.constr 2, VKey.val 3, VKey.val 2, VKey.constr 3])) =
      Except.ok true := by
  refine ⟨rfl, rfl, by decide, rfl⟩

/-! ### Verification of `FindSCCs`: auxiliary lemmas -/

theorem afindK_asetK_self {β : Type} (k : VKey) (v : β)
    (l : List (VKey × β)) : afindK k (asetK k v l) = some v := by
  simp [afindK, asetK, List.find?]

theorem afindK_asetK_ne {β : Type} {k k' : VKey} (v : β)
    (l : List (VKey × β)) (h : k' ≠ k) :
    afindK k' (asetK k v l) = afindK k' l := by
  simp [afindK, asetK, List.find?, Ne.symm h]

theorem popUntil_cons (v : VKey) (scc : Nat) (w : VKey) (rest : List VKey)
    (ons : List (VKey × Bool)) (sccs : List (VKey × Nat)) :
    popUntil v scc (w :: rest) ons sccs =
      if w = v then (rest, asetK w false ons, asetK w scc sccs)
      else popUntil v scc rest (asetK w false ons) (asetK w scc sccs) :=
  rfl

theorem popUntil_spec (v : VKey) (scc : Nat) :
    ∀ (P rest : List VKey) (ons : List (VKey × Bool))
      (sccs : List (VKey × Nat)), v ∉ P →
      (popUntil v scc (P ++ v :: rest) ons sccs).1 = rest ∧
      (∀ x, (x ∈ P ∨ x = v) →
        afindK x (popUntil v scc (P ++ v :: rest) ons sccs).2.1 =
          some false ∧
        afindK x (popUntil v scc (P ++ v :: rest) ons sccs).2.2 =
          some scc) ∧
      (∀ x, x ∉ P → x ≠ v →
        afindK x (popUntil v scc (P ++ v :: rest) ons sccs).2.1 =
          afindK x ons ∧
        afindK x (popUntil v scc (P ++ v :: rest) ons sccs).2.2 =
          afindK x sccs) := by
  intro P
  induction P with
  | nil =>
      intro rest ons sccs _
      have hred : popUntil v scc ([] ++ v :: rest) ons sccs =
          (rest, asetK v false ons, asetK v scc sccs) := by
        simp [popUntil_cons]
      rw [hred]
      refine ⟨rfl, ?_, ?_⟩
      · intro x hx
        have hxv : x = v := by
          rcases hx with hx | hx
          · exact absurd hx (List.not_mem_nil x)
          · exact hx
        subst hxv
        exact ⟨afindK_asetK_self x false ons, afindK_asetK_self x scc sccs⟩
      · intro x _ hxv
        exact ⟨afindK_asetK_ne false ons hxv, afindK_asetK_ne scc sccs hxv⟩
  | cons w P ih =>
      intro rest ons sccs hv
      have hwv : ¬ (w = v) := fun h => hv (by simp [h])
      have hvP : v ∉ P := fun h => hv (by simp [h])
      have hred : popUntil v scc ((w :: P) ++ v :: rest) ons sccs =
          popUntil v scc (P ++ v :: rest) (asetK w false ons)
            (asetK w scc sccs) := by
        rw [List.cons_append, popUntil_cons, if_neg hwv]
      rw [hred]
      rcases ih rest (asetK w false ons) (asetK w scc sccs) hvP with
        ⟨h1, h2, h3⟩
      refine ⟨h1, ?_, ?_⟩
      · intro x hx
        by_cases hxP : x ∈ P ∨ x = v
        · exact h2 x hxP
        · have hxw : x = w := by
            rcases hx with hx | hx
            · rcases List.mem_cons.mp hx with h | h
              · exact h
              · exact absurd (Or.inl h) hxP
            · exact absurd (Or.inr hx) hxP
          push_neg at hxP
          rcases h3 x hxP.1 hxP.2 with ⟨ha, hb⟩
          subst hxw
          rw [ha, hb]
          exact ⟨afindK_asetK_self x false ons,
            afindK_asetK_self x scc sccs⟩
      · intro x hxP hxv
        have hxw : ¬ (x = w) := fun h => hxP (by simp [h])
        have hxP2 : x ∉ P := fun h => hxP (by simp [h])
        rcases h3 x hxP2 hxv with ⟨ha, hb⟩
        rw [ha, hb]
        exact ⟨afindK_asetK_ne false ons hxw, afindK_asetK_ne scc sccs hxw⟩

theorem tIndex_stPush_self (st : TState) (v : VKey) :
    tIndex (stPush st v) v = st.index := by
  simp [stPush, tIndex, afindK_asetK_self]

theorem tIndex_stPush_ne (st : TState) {v x : VKey} (h : x ≠ v) :
    tIndex (stPush st v) x = tIndex st x := by
  simp [stPush, tIndex, afindK_asetK_ne _ _ h]

theorem tLow_stPush_self (st : TState) (v : VKey) :
    tLow (stPush st v) v = st.index := by
  simp [stPush, tLow, afindK_asetK_self]

theorem tLow_stPush_ne (st : TState) {v x : VKey} (h : x ≠ v) :
    tLow (stPush st v) x = tLow st x := by
  simp [stPush, tLow, afindK_asetK_ne _ _ h]

theorem tOnstack_stPush_self (st : TState) (v : VKey) :
    tOnstack (stPush st v) v = true := by
  simp [stPush, tOnstack, afindK_asetK_self]

theorem tOnstack_stPush_ne (st : TState) {v x : VKey} (h : x ≠ v) :
    tOnstack (stPush st v) x = tOnstack st x := by
  simp [stPush, tOnstack, afindK_asetK_ne _ _ h]

theorem doneT_stPush (st : TState) (v x : VKey) :
    doneT (stPush st v) x ↔ doneT st x := Iff.rfl

theorem sccT_stPush (st : TState) (v x : VKey) :
    sccT (stPush st v) x = sccT st x := rfl

theorem tLow_stLow_self (st : TState) (v : VKey) (n : Nat) :
    tLow (stLow st v n) v = n := by
  simp [stLow, tLow, afindK_asetK_self]

theorem tLow_stLow_ne (st : TState) (n : Nat) {v x : VKey} (h : x ≠ v) :
    tLow (stLow st v n) x = tLow st x := by
  simp [stLow, tLow, afindK_asetK_ne _ _ h]

theorem tIndex_stLow (st : TState) (v : VKey) (n : Nat) (x : VKey) :
    tIndex (stLow st v n) x = tIndex st x := rfl

theorem tOnstack_stLow (st : TState) (v : VKey) (n : Nat) (x : VKey) :
    tOnstack (stLow st v n) x = tOnstack st x := rfl

theorem doneT_stLow (st : TState) (v : VKey) (n : Nat) (x : VKey) :
    doneT (stLow st v n) x ↔ doneT st x := Iff.rfl

theorem sccT_stLow (st : TState) (v : VKey) (n : Nat) (x : VKey) :
    sccT (stLow st v n) x = sccT st x := rfl

theorem visitedT_stLow (st : TState) (v : VKey) (n : Nat) (x : VKey) :
    visitedT (stLow st v n) x ↔ visitedT st x := Iff.rfl

theorem MonoT.refl (st : TState) : MonoT st st where
  index_le := le_refl _
  scc_le := le_refl _
  visited_mono := fun _ h => h
  index_eq := fun _ _ => rfl
  low_eq := fun _ _ => rfl
  done_mono := fun _ h => h
  scc_eq := fun _ _ => rfl
  stack_ext := ⟨[], by simp⟩

theorem MonoT.trans {a b c : TState} (h1 : MonoT a b) (h2 : MonoT b c) :
    MonoT a c where
  index_le := le_trans h1.index_le h2.index_le
  scc_le := le_trans h1.scc_le h2.scc_le
  visited_mono := fun x h => h2.visited_mono x (h1.visited_mono x h)
  index_eq := fun x h => by
    rw [h2.index_eq x (h1.visited_mono x h), h1.index_eq x h]
  low_eq := fun x h => by
    rw [h2.low_eq x (h1.visited_mono x h), h1.low_eq x h]
  done_mono := fun x h => h2.done_mono x (h1.done_mono x h)
  scc_eq := fun x h => by
    rw [h2.scc_eq x (h1.done_mono x h), h1.scc_eq x h]
  stack_ext := by
    rcases h1.stack_ext with ⟨xs1, he1, hf1⟩
    rcases h2.stack_ext with ⟨xs2, he2, hf2⟩
    refine ⟨xs2 ++ xs1, by rw [he2, he1, List.append_assoc], ?_⟩
    intro x hx
    rcases List.mem_append.mp hx with hx | hx
    · intro hv
      exact hf2 x hx (h1.visited_mono x hv)
    · exact hf1 x hx

theorem visitedT_of_index {st : TState} {x : VKey} (h : tIndex st x ≠ 0) :
    visitedT st x := h

theorem index_stPush (st : TState) (v : VKey) :
    (stPush st v).index = st.index + 1 := rfl

theorem stack_stPush (st : TState) (v : VKey) :
    (stPush st v).stack = v :: st.stack := rfl

theorem scc_stPush (st : TState) (v : VKey) :
    (stPush st v).scc = st.scc := rfl

theorem index_stLow (st : TState) (v : VKey) (n : Nat) :
    (stLow st v n).index = st.index := rfl

theorem stack_stLow (st : TState) (v : VKey) (n : Nat) :
    (stLow st v n).stack = st.stack := rfl

theorem scc_stLow (st : TState) (v : VKey) (n : Nat) :
    (stLow st v n).scc = st.scc := rfl

/-- A lowlink update below the vertex's index preserves the state
invariant. -/
theorem WFT_stLow (g : Graph) (s : TState) (v : VKey) (n : Nat)
    (hwf : WFT g s) (h1 : 1 ≤ n) (h2 : n ≤ tIndex s v) :
    WFT g (stLow s v n) := by
  refine ⟨?_, ?_, ?_, ?_, ?_, ?_, ?_, ?_, ?_, ?_, ?_⟩
  · rw [index_stLow]; exact hwf.index_pos
  · intro x hx
    rw [stack_stLow] at hx
    exact (visitedT_stLow s v n x).mpr (hwf.stack_visited x hx)
  · intro x hx
    rw [stack_stLow] at hx
    intro hd
    exact hwf.stack_not_done x hx ((doneT_stLow s v n x).mp hd)
  · intro x hvx hdx
    rw [stack_stLow]
    exact hwf.not_done_mem x ((visitedT_stLow s v n x).mp hvx)
      (fun h => hdx ((doneT_stLow s v n x).mpr h))
  · intro x
    rw [stack_stLow, tOnstack_stLow]
    exact hwf.onstack_iff x
  · rw [stack_stLow]
    refine List.Pairwise.imp_of_mem ?_ hwf.stack_sorted
    intro a b _ _ hab
    rw [tIndex_stLow, tIndex_stLow]
    exact hab
  · intro x hvx
    rw [tIndex_stLow, index_stLow]
    exact hwf.visited_lt x ((visitedT_stLow s v n x).mp hvx)
  · intro x hdx
    rw [sccT_stLow, scc_stLow]
    exact hwf.done_scc_lt x ((doneT_stLow s v n x).mp hdx)
  · intro x hdx
    exact (visitedT_stLow s v n x).mpr
      (hwf.done_visited x ((doneT_stLow s v n x).mp hdx))
  · intro x hvx
    by_cases hxv : x = v
    · rw [hxv, tLow_stLow_self, tIndex_stLow]
      exact ⟨h2, h1⟩
    · rw [tLow_stLow_ne s n hxv, tIndex_stLow]
      exact hwf.low_le_index x ((visitedT_stLow s v n x).mp hvx)
  · intro u hdu e he hef
    rcases hwf.edge_inv u ((doneT_stLow s v n u).mp hdu) e he hef with
      ⟨ha, hb⟩
    refine ⟨(doneT_stLow s v n e.eto).mpr ha, ?_⟩
    rw [sccT_stLow, sccT_stLow]
    exact hb

/-- A lowlink update of a vertex unvisited in the base state preserves
monotonicity from that base state. -/
theorem MonoT_stLow {a b : TState} (h : MonoT a b) (v : VKey)
    (hv : ¬ visitedT a v) (n : Nat) : MonoT a (stLow b v n) := by
  have hne : ∀ x, visitedT a x → x ≠ v := fun x hx he => hv (he ▸ hx)
  refine ⟨?_, ?_, ?_, ?_, ?_, ?_, ?_, ?_⟩
  · rw [index_stLow]; exact h.index_le
  · rw [scc_stLow]; exact h.scc_le
  · intro x hx
    exact (visitedT_stLow b v n x).mpr (h.visited_mono x hx)
  · intro x hx
    rw [tIndex_stLow]
    exact h.index_eq x hx
  · intro x hx
    rw [tLow_stLow_ne b n (hne x hx)]
    exact h.low_eq x hx
  · intro x hx
    exact (doneT_stLow b v n x).mpr (h.done_mono x hx)
  · intro x hx
    rw [sccT_stLow]
    exact h.scc_eq x hx
  · rw [stack_stLow]
    exact h.stack_ext

/-- Pushing an unvisited vertex establishes the loop invariant. -/
theorem linv_init (g : Graph) (st : TState) (v : VKey)
    (hwf : WFT g st) (hnv : ¬ visitedT st v) :
    LInvT g st v [] (stPush st v) := by
  have hne_of_vis : ∀ x, visitedT st x → x ≠ v := fun x hx he =>
    hnv (he ▸ hx)
  have hne_of_mem : ∀ x ∈ st.stack, x ≠ v := fun x hx =>
    hne_of_vis x (hwf.stack_visited x hx)
  have hvis_push : ∀ x, x ≠ v →
      (visitedT (stPush st v) x ↔ visitedT st x) := by
    intro x hx
    unfold visitedT
    rw [tIndex_stPush_ne st hx]
  have hvpos : visitedT (stPush st v) v := by
    unfold visitedT
    rw [tIndex_stPush_self]
    have := hwf.index_pos
    omega
  have hdone_v : ¬ doneT st v := fun h => hnv (hwf.done_visited v h)
  refine ⟨?_, ?_, ?_, ?_, ?_, ?_, ?_, ?_, ?_⟩
  · -- the state invariant survives the push
    refine ⟨?_, ?_, ?_, ?_, ?_, ?_, ?_, ?_, ?_, ?_, ?_⟩
    · rw [index_stPush]
      have := hwf.index_pos
      omega
    · intro x hx
      rw [stack_stPush] at hx
      rcases List.mem_cons.mp hx with h | h
      · rw [h]; exact hvpos
      · exact (hvis_push x (hne_of_mem x h)).mpr (hwf.stack_visited x h)
    · intro x hx
      rw [stack_stPush] at hx
      rcases List.mem_cons.mp hx with h | h
      · intro hd
        exact hdone_v (h ▸ ((doneT_stPush st v x).mp hd))
      · intro hd
        exact hwf.stack_not_done x h ((doneT_stPush st v x).mp hd)
    · intro x hvx hdx
      rw [stack_stPush]
      by_cases hxv : x = v
      · rw [hxv]; exact List.mem_cons_self _ _
      · refine List.mem_cons_of_mem _ ?_
        exact hwf.not_done_mem x ((hvis_push x hxv).mp hvx)
          (fun h => hdx ((doneT_stPush st v x).mpr h))
    · intro x
      rw [stack_stPush]
      by_cases hxv : x = v
      · rw [hxv]
        simp [tOnstack_stPush_self]
      · rw [tOnstack_stPush_ne st hxv]
        constructor
        · intro h
          exact List.mem_cons_of_mem _ ((hwf.onstack_iff x).mp h)
        · intro h
          rcases List.mem_cons.mp h with h | h
          · exact absurd h hxv
          · exact (hwf.onstack_iff x).mpr h
    · rw [stack_stPush]
      refine List.pairwise_cons.mpr ⟨?_, ?_⟩
      · intro x hx
        rw [tIndex_stPush_ne st (hne_of_mem x hx), tIndex_stPush_self]
        exact hwf.visited_lt x (hwf.stack_visited x hx)
      · refine List.Pairwise.imp_of_mem ?_ hwf.stack_sorted
        intro a b ha hb hab
        rw [tIndex_stPush_ne st (hne_of_mem a ha),
            tIndex_stPush_ne st (hne_of_mem b hb)]
        exact hab
    · intro x hvx
      by_cases hxv : x = v
      · rw [hxv, tIndex_stPush_self, index_stPush]
        omega
      · rw [tIndex_stPush_ne st hxv, index_stPush]
        have := hwf.visited_lt x ((hvis_push x hxv).mp hvx)
        omega
    · intro x hdx
      rw [sccT_stPush, scc_stPush]
      exact hwf.done_scc_lt x ((doneT_stPush st v x).mp hdx)
    · intro x hdx
      have hdx' := (doneT_stPush st v x).mp hdx
      have hvx := hwf.done_visited x hdx'
      exact (hvis_push x (hne_of_vis x hvx)).mpr hvx
    · intro x hvx
      by_cases hxv : x = v
      · rw [hxv, tLow_stPush_self, tIndex_stPush_self]
        exact ⟨le_refl _, hwf.index_pos⟩
      · rw [tLow_stPush_ne st hxv, tIndex_stPush_ne st hxv]
        exact hwf.low_le_index x ((hvis_push x hxv).mp hvx)
    · intro u hdu e he hef
      rcases hwf.edge_inv u ((doneT_stPush st v u).mp hdu) e he hef with
        ⟨ha, hb⟩
      refine ⟨(doneT_stPush st v e.eto).mpr ha, ?_⟩
      rw [sccT_stPush, sccT_stPush]
      exact hb
  · -- monotonicity of the push
    refine ⟨?_, ?_, ?_, ?_, ?_, ?_, ?_, ?_⟩
    · rw [index_stPush]; omega
    · exact Nat.le_of_eq (scc_stPush st v).symm
    · intro x hvx
      exact (hvis_push x (hne_of_vis x hvx)).mpr hvx
    · intro x hvx
      exact tIndex_stPush_ne st (hne_of_vis x hvx)
    · intro x hvx
      exact tLow_stPush_ne st (hne_of_vis x hvx)
    · intro x h
      exact (doneT_stPush st v x).mpr h
    · intro x _
      exact sccT_stPush st v x
    · refine ⟨[v], rfl, ?_⟩
      intro x hx
      have hxv : x = v := by simpa using hx
      rw [hxv]
      exact hnv
  · exact Nat.le_of_eq (index_stPush st v).symm
  · rw [stack_stPush]
    exact List.mem_cons_self _ _
  · exact tIndex_stPush_self st v
  · intro x hnx hvx
    by_cases hxv : x = v
    · rw [hxv]
      exact le_of_eq (tIndex_stPush_self st v).symm
    · exact absurd ((hvis_push x hxv).mp hvx) hnx
  · exact Or.inl (by rw [tLow_stPush_self, tIndex_stPush_self])
  · intro x hx hnx hxv e _ _
    rw [stack_stPush] at hx
    rcases List.mem_cons.mp hx with h | h
    · exact absurd h hxv
    · exact absurd h hnx
  · intro e he
    exact absurd he (List.not_mem_nil e)

/-- Inversion of a successful `Except` bind. -/
theorem except_bind_ok {α β : Type} {x : Except String α}
    {f : α → Except String β} {b : β}
    (h : x >>= f = Except.ok b) :
    ∃ a, x = Except.ok a ∧ f a = Except.ok b := by
  cases x with
  | error e =>
      rw [show ((Except.error e : Except String α) >>= f) =
        (Except.error e : Except String β) from rfl] at h
      exact Except.noConfusion h
  | ok a => exact ⟨a, rfl, h⟩

/-- Unfolding of the successor-loop body. -/
theorem scBody_eq (rec : VKey → TState → Except String TState) (v : VKey)
    (st : TState) (e : EdgeE) :
    scBody rec v st e =
      if tIndex st e.eto = 0 then
        rec e.eto st >>= fun s =>
          if tLow s e.eto < tLow s v then
            Except.ok (stLow s v (tLow s e.eto))
          else Except.ok s
      else if tOnstack st e.eto then
        if tIndex st e.eto < tLow st v then
          Except.ok (stLow st v (tIndex st e.eto))
        else Except.ok st
      else Except.ok st := rfl

/-- Unfolding of `strongconnect` at positive fuel: push, successor
loop, then the root test and pop. -/
theorem strongconnect_succ (fuel : Nat) (g : Graph) (v : VKey)
    (st : TState) :
    strongconnect (fuel + 1) g v st =
      (succsOf g v).foldlM (scBody (strongconnect fuel g) v) (stPush st v)
        >>= fun st2 =>
          if tLow st2 v = tIndex st2 v then Except.ok (stPop st2 v)
          else Except.ok st2 := rfl

theorem tIndex_stPop (st : TState) (v x : VKey) :
    tIndex (stPop st v) x = tIndex st x := rfl

theorem tLow_stPop (st : TState) (v x : VKey) :
    tLow (stPop st v) x = tLow st x := rfl

theorem index_stPop (st : TState) (v : VKey) :
    (stPop st v).index = st.index := rfl

theorem scc_stPop (st : TState) (v : VKey) :
    (stPop st v).scc = st.scc + 1 := rfl

theorem stack_stPop (st : TState) (v : VKey) :
    (stPop st v).stack =
      (popUntil v st.scc st.stack st.onstack st.sccOfT).1 := rfl

theorem onstack_stPop (st : TState) (v : VKey) :
    (stPop st v).onstack =
      (popUntil v st.scc st.stack st.onstack st.sccOfT).2.1 := rfl

theorem sccOfT_stPop (st : TState) (v : VKey) :
    (stPop st v).sccOfT =
      (popUntil v st.scc st.stack st.onstack st.sccOfT).2.2 := rfl

theorem visitedT_stPop (st : TState) (v x : VKey) :
    visitedT (stPop st v) x ↔ visitedT st x := Iff.rfl

/-- The successor loop of `strongconnect` preserves the loop
invariant, assuming the postcondition of the recursive calls at the
lower fuel. -/
theorem sc_loop (fuel : Nat) (g : Graph) (v : VKey) (st : TState)
    (hnv : ¬ visitedT st v)
    (HIH : ∀ (w : VKey) (s s' : TState), WFT g s → ¬ visitedT s w →
      strongconnect fuel g w s = Except.ok s' → PostT g s w s') :
    ∀ (rest es : List EdgeE) (cur st2 : TState),
      (∀ e ∈ rest, e ∈ g.edges) →
      LInvT g st v es cur →
      List.foldlM (scBody (strongconnect fuel g) v) cur rest =
        Except.ok st2 →
      LInvT g st v (es ++ rest) st2 := by
  intro rest
  induction rest with
  | nil =>
      intro es cur st2 _ hinv hfold
      have hfold' : (Except.ok cur : Except String TState) =
          Except.ok st2 := hfold
      have h := Except.ok.inj hfold'
      rw [← h, List.append_nil]
      exact hinv
  | cons e rest ih =>
      intro es cur st2 hedges hinv hfold
      have he_g : e ∈ g.edges := hedges e (List.mem_cons_self _ _)
      have hrestg : ∀ e' ∈ rest, e' ∈ g.edges := fun e' h' =>
        hedges e' (List.mem_cons_of_mem _ h')
      have hfold' : (scBody (strongconnect fuel g) v cur e >>= fun c =>
          List.foldlM (scBody (strongconnect fuel g) v) c rest) =
          Except.ok st2 := hfold
      rcases except_bind_ok hfold' with ⟨mid, hstep, hrest_run⟩
      have hmid : LInvT g st v (es ++ [e]) mid := by
        rw [scBody_eq] at hstep
        have hwfc := hinv.wf
        have hvisv : visitedT cur v := hwfc.stack_visited v hinv.v_mem
        have hvi := hinv.v_index
        have hlow_le : tLow cur v ≤ st.index := by
          rcases hinv.low_wit with h | ⟨h, _⟩ <;> omega
        rcases hinv.mono.stack_ext with ⟨xs, hxs, hfresh⟩
        have hsub : ∀ x ∈ st.stack, x ∈ cur.stack := by
          intro x hx
          rw [hxs]
          exact List.mem_append.mpr (Or.inr hx)
        by_cases h0 : tIndex cur e.eto = 0
        · -- unvisited successor: recursive call
          rw [if_pos h0] at hstep
          rcases except_bind_ok hstep with ⟨s1, hrec, hupd⟩
          have hnvw : ¬ visitedT cur e.eto := fun hv => hv h0
          have hpost := HIH e.eto cur s1 hwfc hnvw hrec
          have hvw : visitedT s1 e.eto := hpost.visited_v
          have hlow_pres : tLow s1 v = tLow cur v :=
            hpost.mono.low_eq v hvisv
          have hidx_pres : tIndex s1 v = tIndex cur v :=
            hpost.mono.index_eq v hvisv
          have hwge : st.index ≤ tIndex s1 e.eto := by
            have h3 := hpost.new_ge e.eto hnvw hvw
            have h4 := hinv.idx1
            omega
          rcases hpost.mono.stack_ext with ⟨ys, hys, hfresh2⟩
          have hsub2 : ∀ x ∈ cur.stack, x ∈ s1.stack := by
            intro x hx
            rw [hys]
            exact List.mem_append.mpr (Or.inr hx)
          have hidx_old : ∀ x ∈ cur.stack, tIndex s1 x = tIndex cur x :=
            fun x hx => hpost.mono.index_eq x (hwfc.stack_visited x hx)
          have htransfer : tLow s1 v ≤ tLow s1 e.eto →
              (doneT s1 e.eto ∨
                (e.eto ∈ s1.stack ∧ tLow s1 v ≤ tIndex s1 e.eto)) →
              LInvT g st v (es ++ [e]) s1 := by
            intro hkey hnew
            refine ⟨hpost.wf, MonoT.trans hinv.mono hpost.mono, ?_, ?_,
              ?_, ?_, ?_, ?_, ?_⟩
            · have h1 := hinv.idx1
              have h2 := hpost.mono.index_le
              omega
            · exact hsub2 v hinv.v_mem
            · rw [hidx_pres]
              exact hvi
            · intro x hnx hvx
              by_cases hcx : visitedT cur x
              · rw [hpost.mono.index_eq x hcx]
                exact hinv.fresh_ge x hnx hcx
              · have h3 := hpost.new_ge x hcx hvx
                have h4 := hinv.idx1
                omega
            · rcases hinv.low_wit with h | ⟨h, u, hu, huq⟩
              · left
                rw [hlow_pres, hidx_pres]
                exact h
              · right
                refine ⟨by rw [hlow_pres, hidx_pres]; omega, u, hu, ?_⟩
                rw [hpost.mono.index_eq u (hwfc.stack_visited u
                  (hsub u hu)), huq, hlow_pres]
            · intro x hx hnx hxv e' he' hef'
              by_cases hcx : x ∈ cur.stack
              · rcases hinv.proc_res x hcx hnx hxv e' he' hef' with
                  hd | ⟨hm, hb⟩
                · exact Or.inl (hpost.mono.done_mono _ hd)
                · refine Or.inr ⟨hsub2 _ hm, ?_⟩
                  rw [hlow_pres, hidx_old _ hm]
                  exact hb
              · rcases hpost.edge_proc x hx hcx e' he' hef' with
                  hd | ⟨hm, hb⟩
                · exact Or.inl hd
                · refine Or.inr ⟨hm, ?_⟩
                  omega
            · intro e2 he2
              rcases List.mem_append.mp he2 with h | h
              · rcases hinv.proc_done e2 h with hd | ⟨hm, hb⟩
                · exact Or.inl (hpost.mono.done_mono _ hd)
                · refine Or.inr ⟨hsub2 _ hm, ?_⟩
                  rw [hlow_pres, hidx_old _ hm]
                  exact hb
              · have he3 : e2 = e := by simpa using h
                rw [he3]
                exact hnew
          rcases hpost.done_or with ⟨hdw, hstack_eq, hloww⟩ |
            ⟨hndw, hwmem2, hlowlt, u, humem, huidx⟩
          · -- the successor's SCC was already popped
            have hnotlt : ¬ tLow s1 e.eto < tLow s1 v := by omega
            rw [if_neg hnotlt] at hupd
            have hmq := Except.ok.inj hupd
            rw [← hmq]
            exact htransfer (by omega) (Or.inl hdw)
          · by_cases hlt : tLow s1 e.eto < tLow s1 v
            · -- lowlink of `v` drops to the successor's lowlink
              rw [if_pos hlt] at hupd
              have hmq := Except.ok.inj hupd
              rw [← hmq]
              have hust : u ∈ st.stack := by
                have hu2 := humem
                rw [hxs] at hu2
                rcases List.mem_append.mp hu2 with hu3 | hu3
                · exfalso
                  have hvu : visitedT cur u := hwfc.stack_visited u humem
                  have hge := hinv.fresh_ge u (hfresh u hu3) hvu
                  have hieq := hpost.mono.index_eq u hvu
                  omega
                · exact hu3
              have hvs1 : visitedT s1 v := hpost.mono.visited_mono v hvisv
              have hlv := (hpost.wf.low_le_index v hvs1).1
              have hlw := (hpost.wf.low_le_index e.eto hvw).2
              refine ⟨WFT_stLow g s1 v _ hpost.wf hlw (by omega),
                MonoT_stLow (MonoT.trans hinv.mono hpost.mono) v hnv _,
                ?_, ?_, ?_, ?_, ?_, ?_, ?_⟩
              · rw [index_stLow]
                have h1 := hinv.idx1
                have h2 := hpost.mono.index_le
                omega
              · rw [stack_stLow]
                exact hsub2 v hinv.v_mem
              · rw [tIndex_stLow, hidx_pres]
                exact hvi
              · intro x hnx hvx
                rw [tIndex_stLow]
                have hvx2 : visitedT s1 x :=
                  (visitedT_stLow s1 v _ x).mp hvx
                by_cases hcx : visitedT cur x
                · rw [hpost.mono.index_eq x hcx]
                  exact hinv.fresh_ge x hnx hcx
                · have h3 := hpost.new_ge x hcx hvx2
                  have h4 := hinv.idx1
                  omega
              · right
                refine ⟨?_, u, hust, ?_⟩
                · rw [tLow_stLow_self, tIndex_stLow]
                  omega
                · rw [tIndex_stLow, tLow_stLow_self]
                  exact huidx
              · intro x hx hnx hxv e' he' hef'
                rw [stack_stLow] at hx
                by_cases hcx : x ∈ cur.stack
                · rcases hinv.proc_res x hcx hnx hxv e' he' hef' with
                    hd | ⟨hm, hb⟩
                  · exact Or.inl ((doneT_stLow s1 v _ e'.eto).mpr
                      (hpost.mono.done_mono _ hd))
                  · refine Or.inr ⟨?_, ?_⟩
                    · rw [stack_stLow]
                      exact hsub2 _ hm
                    · rw [tLow_stLow_self, tIndex_stLow, hidx_old _ hm]
                      omega
                · rcases hpost.edge_proc x hx hcx e' he' hef' with
                    hd | ⟨hm, hb⟩
                  · exact Or.inl ((doneT_stLow s1 v _ e'.eto).mpr hd)
                  · refine Or.inr ⟨by rw [stack_stLow]; exact hm, ?_⟩
                    rw [tLow_stLow_self, tIndex_stLow]
                    exact hb
              · intro e2 he2
                rcases List.mem_append.mp he2 with h | h
                · rcases hinv.proc_done e2 h with hd | ⟨hm, hb⟩
                  · exact Or.inl ((doneT_stLow s1 v _ e2.eto).mpr
                      (hpost.mono.done_mono _ hd))
                  · refine Or.inr ⟨?_, ?_⟩
                    · rw [stack_stLow]
                      exact hsub2 _ hm
                    · rw [tLow_stLow_self, tIndex_stLow, hidx_old _ hm]
                      omega
                · have he3 : e2 = e := by simpa using h
                  rw [he3]
                  refine Or.inr ⟨by rw [stack_stLow]; exact hwmem2, ?_⟩
                  rw [tLow_stLow_self, tIndex_stLow]
                  omega
            · -- successor on the stack with a lowlink at or above ours
              rw [if_neg hlt] at hupd
              have hmq := Except.ok.inj hupd
              rw [← hmq]
              exact htransfer (by omega) (Or.inr ⟨hwmem2, by omega⟩)
        · -- already-visited successor
          rw [if_neg h0] at hstep
          by_cases hon : tOnstack cur e.eto = true
          · rw [if_pos hon] at hstep
            have hwmem : e.eto ∈ cur.stack :=
              (hwfc.onstack_iff e.eto).mp hon
            by_cases hlt : tIndex cur e.eto < tLow cur v
            · rw [if_pos hlt] at hstep
              have hmq := Except.ok.inj hstep
              rw [← hmq]
              have hwst : e.eto ∈ st.stack := by
                have hw2 := hwmem
                rw [hxs] at hw2
                rcases List.mem_append.mp hw2 with hu | hu
                · exfalso
                  have hge := hinv.fresh_ge e.eto (hfresh _ hu)
                    (hwfc.stack_visited _ hwmem)
                  omega
                · exact hu
              have h1n : 1 ≤ tIndex cur e.eto := by omega
              have h2n : tIndex cur e.eto ≤ tIndex cur v := by
                have h3 := (hwfc.low_le_index v hvisv).1
                omega
              refine ⟨WFT_stLow g cur v _ hwfc h1n h2n,
                MonoT_stLow hinv.mono v hnv _, ?_, ?_, ?_, ?_, ?_, ?_, ?_⟩
              · rw [index_stLow]
                exact hinv.idx1
              · rw [stack_stLow]
                exact hinv.v_mem
              · rw [tIndex_stLow]
                exact hvi
              · intro x hnx hvx
                rw [tIndex_stLow]
                exact hinv.fresh_ge x hnx
                  ((visitedT_stLow cur v _ x).mp hvx)
              · right
                refine ⟨?_, e.eto, hwst, ?_⟩
                · rw [tLow_stLow_self, tIndex_stLow]
                  have h3 := (hwfc.low_le_index v hvisv).1
                  omega
                · rw [tIndex_stLow, tLow_stLow_self]
              · intro x hx hnx hxv e' he' hef'
                rw [stack_stLow] at hx
                rcases hinv.proc_res x hx hnx hxv e' he' hef' with
                  hd | ⟨hm, hb⟩
                · exact Or.inl ((doneT_stLow cur v _ e'.eto).mpr hd)
                · refine Or.inr ⟨by rw [stack_stLow]; exact hm, ?_⟩
                  rw [tLow_stLow_self, tIndex_stLow]
                  omega
              · intro e2 he2
                rcases List.mem_append.mp he2 with h | h
                · rcases hinv.proc_done e2 h with hd | ⟨hm, hb⟩
                  · exact Or.inl ((doneT_stLow cur v _ e2.eto).mpr hd)
                  · refine Or.inr ⟨by rw [stack_stLow]; exact hm, ?_⟩
                    rw [tLow_stLow_self, tIndex_stLow]
                    omega
                · have he3 : e2 = e := by simpa using h
                  rw [he3]
                  refine Or.inr ⟨by rw [stack_stLow]; exact hwmem, ?_⟩
                  rw [tLow_stLow_self, tIndex_stLow]
            · rw [if_neg hlt] at hstep
              have hmq := Except.ok.inj hstep
              rw [← hmq]
              refine ⟨hinv.wf, hinv.mono, hinv.idx1, hinv.v_mem,
                hinv.v_index, hinv.fresh_ge, hinv.low_wit,
                hinv.proc_res, ?_⟩
              intro e2 he2
              rcases List.mem_append.mp he2 with h | h
              · exact hinv.proc_done e2 h
              · have he3 : e2 = e := by simpa using h
                rw [he3]
                exact Or.inr ⟨hwmem, by omega⟩
          · -- visited but off the stack: the successor is done
            rw [if_neg hon] at hstep
            have hmq := Except.ok.inj hstep
            rw [← hmq]
            have hdw : doneT cur e.eto := by
              by_contra hnd
              have hmem := hwfc.not_done_mem e.eto h0 hnd
              exact hon ((hwfc.onstack_iff e.eto).mpr hmem)
            refine ⟨hinv.wf, hinv.mono, hinv.idx1, hinv.v_mem,
              hinv.v_index, hinv.fresh_ge, hinv.low_wit,
              hinv.proc_res, ?_⟩
            intro e2 he2
            rcases List.mem_append.mp he2 with h | h
            · exact hinv.proc_done e2 h
            · have he3 : e2 = e := by simpa using h
              rw [he3]
              exact Or.inl hdw
      have heq : es ++ e :: rest = (es ++ [e]) ++ rest := by simp
      rw [heq]
      exact ih (es ++ [e]) mid st2 hrestg hmid hrest_run

/-- Popping the root's SCC at the end of `strongconnect` yields the
postcondition. -/
theorem root_pop (g : Graph) (st : TState) (v : VKey) (st2 : TState)
    (hwf0 : WFT g st) (hnv : ¬ visitedT st v)
    (hinv : LInvT g st v (succsOf g v) st2)
    (hroot : tLow st2 v = tIndex st2 v) :
    PostT g st v (stPop st2 v) := by
  have hwfc := hinv.wf
  have hvi := hinv.v_index
  have hvnotst : v ∉ st.stack := fun h => hnv (hwf0.stack_visited v h)
  rcases hinv.mono.stack_ext with ⟨xs, hxs, hfresh⟩
  have hvxs : v ∈ xs := by
    have hm := hinv.v_mem
    rw [hxs] at hm
    rcases List.mem_append.mp hm with h | h
    · exact h
    · exact absurd h hvnotst
  rcases List.append_of_mem hvxs with ⟨P, Q, hPQ⟩
  have hstack2 : st2.stack = P ++ v :: (Q ++ st.stack) := by
    rw [hxs, hPQ]
    simp
  have hsort := hwfc.stack_sorted
  rw [hstack2] at hsort
  rcases List.pairwise_append.mp hsort with ⟨hsortP, hsortVQ, hcross⟩
  have hhead := (List.pairwise_cons.mp hsortVQ).1
  have hQnil : Q = [] := by
    rcases Q with _ | ⟨q, Q2⟩
    · rfl
    · exfalso
      have hqxs : q ∈ xs := by
        rw [hPQ]
        simp
      have hqstk : q ∈ st2.stack := by
        rw [hstack2]
        simp
      have hlt := hhead q (by simp)
      have hge := hinv.fresh_ge q (hfresh q hqxs)
        (hwfc.stack_visited q hqstk)
      omega
  subst hQnil
  rw [List.nil_append] at hstack2
  have hvP : v ∉ P := by
    intro hvp
    have h := hcross v hvp v (List.mem_cons_self _ _)
    omega
  have hPfresh : ∀ x ∈ P, ¬ visitedT st x := by
    intro x hx
    refine hfresh x ?_
    rw [hPQ]
    exact List.mem_append.mpr (Or.inl hx)
  have hPstk : ∀ x ∈ P, x ∈ st2.stack := by
    intro x hx
    rw [hstack2]
    exact List.mem_append.mpr (Or.inl hx)
  have hpop := popUntil_spec v st2.scc P st.stack st2.onstack
    st2.sccOfT hvP
  rw [← hstack2] at hpop
  rcases hpop with ⟨hpop1, hpop2, hpop3⟩
  have hstk_pop : (stPop st2 v).stack = st.stack := by
    rw [stack_stPop, hpop1]
  have hdone_pv : ∀ x, (x ∈ P ∨ x = v) → doneT (stPop st2 v) x := by
    intro x hx
    have h := (hpop2 x hx).2
    unfold doneT
    rw [sccOfT_stPop, h]
    rfl
  have hscc_pv : ∀ x, (x ∈ P ∨ x = v) →
      sccT (stPop st2 v) x = st2.scc := by
    intro x hx
    have h := (hpop2 x hx).2
    unfold sccT
    rw [sccOfT_stPop, h]
    rfl
  have hdone_other : ∀ x, x ∉ P → x ≠ v →
      (doneT (stPop st2 v) x ↔ doneT st2 x) := by
    intro x h1 h2
    unfold doneT
    rw [sccOfT_stPop, (hpop3 x h1 h2).2]
  have hscc_other : ∀ x, x ∉ P → x ≠ v →
      sccT (stPop st2 v) x = sccT st2 x := by
    intro x h1 h2
    unfold sccT
    rw [sccOfT_stPop, (hpop3 x h1 h2).2]
  have hmem_split : ∀ x, x ∈ st2.stack ↔
      (x ∈ P ∨ x = v ∨ x ∈ st.stack) := by
    intro x
    rw [hstack2]
    simp
  have hstP : ∀ x ∈ st.stack, x ∉ P ∧ x ≠ v := by
    intro x hx
    constructor
    · intro hp
      exact hPfresh x hp (hwf0.stack_visited x hx)
    · intro he
      exact hvnotst (he ▸ hx)
  have hdoneP : ∀ x, doneT st2 x → x ∉ P ∧ x ≠ v := by
    intro x hd
    constructor
    · intro hp
      exact hwfc.stack_not_done x (hPstk x hp) hd
    · intro he
      exact hwfc.stack_not_done v hinv.v_mem (he ▸ hd)
  refine ⟨?_, ?_, ?_, ?_, ?_, ?_⟩
  · -- the invariant after the pop
    refine ⟨?_, ?_, ?_, ?_, ?_, ?_, ?_, ?_, ?_, ?_, ?_⟩
    · rw [index_stPop]
      exact hwfc.index_pos
    · intro x hx
      rw [hstk_pop] at hx
      exact (visitedT_stPop st2 v x).mpr (hwfc.stack_visited x
        ((hmem_split x).mpr (Or.inr (Or.inr hx))))
    · intro x hx
      rw [hstk_pop] at hx
      rcases hstP x hx with ⟨hnp, hne⟩
      intro hd
      exact hwfc.stack_not_done x
        ((hmem_split x).mpr (Or.inr (Or.inr hx)))
        ((hdone_other x hnp hne).mp hd)
    · intro x hvx hdx
      rw [hstk_pop]
      have hvx2 : visitedT st2 x := (visitedT_stPop st2 v x).mp hvx
      by_cases hp : x ∈ P ∨ x = v
      · exact absurd (hdone_pv x hp) hdx
      · push_neg at hp
        have hd2 : ¬ doneT st2 x := fun h =>
          hdx ((hdone_other x hp.1 hp.2).mpr h)
        have hmem := hwfc.not_done_mem x hvx2 hd2
        rcases (hmem_split x).mp hmem with h | h | h
        · exact absurd h hp.1
        · exact absurd h hp.2
        · exact h
    · intro x
      rw [hstk_pop]
      by_cases hp : x ∈ P ∨ x = v
      · have hon : tOnstack (stPop st2 v) x = false := by
          unfold tOnstack
          rw [onstack_stPop, (hpop2 x hp).1]
          rfl
        rw [hon]
        constructor
        · intro h
          simp at h
        · intro hmem
          exfalso
          rcases hstP x hmem with ⟨hnp, hne⟩
          rcases hp with h | h
          · exact hnp h
          · exact hne h
      · push_neg at hp
        have hon : tOnstack (stPop st2 v) x = tOnstack st2 x := by
          unfold tOnstack
          rw [onstack_stPop, (hpop3 x hp.1 hp.2).1]
        rw [hon, hwfc.onstack_iff x, hmem_split x]
        constructor
        · intro h
          rcases h with h | h | h
          · exact absurd h hp.1
          · exact absurd h hp.2
          · exact h
        · intro h
          exact Or.inr (Or.inr h)
    · rw [hstk_pop]
      refine List.Pairwise.imp_of_mem ?_ hwf0.stack_sorted
      intro a b ha hb hab
      rw [tIndex_stPop, tIndex_stPop,
        hinv.mono.index_eq a (hwf0.stack_visited a ha),
        hinv.mono.index_eq b (hwf0.stack_visited b hb)]
      exact hab
    · intro x hvx
      rw [tIndex_stPop, index_stPop]
      exact hwfc.visited_lt x ((visitedT_stPop st2 v x).mp hvx)
    · intro x hdx
      rw [scc_stPop]
      by_cases hp : x ∈ P ∨ x = v
      · rw [hscc_pv x hp]
        omega
      · push_neg at hp
        rw [hscc_other x hp.1 hp.2]
        have h := hwfc.done_scc_lt x ((hdone_other x hp.1 hp.2).mp hdx)
        omega
    · intro x hdx
      refine (visitedT_stPop st2 v x).mpr ?_
      by_cases hp : x ∈ P ∨ x = v
      · rcases hp with h | h
        · exact hwfc.stack_visited x (hPstk x h)
        · rw [h]
          exact hwfc.stack_visited v hinv.v_mem
      · push_neg at hp
        exact hwfc.done_visited x ((hdone_other x hp.1 hp.2).mp hdx)
    · intro x hvx
      rw [tLow_stPop, tIndex_stPop]
      exact hwfc.low_le_index x ((visitedT_stPop st2 v x).mp hvx)
    · intro u hdu e he hef
      by_cases hp : u ∈ P ∨ u = v
      · -- a member of the popped SCC
        have hu_stk : u ∈ st2.stack := by
          rcases hp with h | h
          · exact hPstk u h
          · rw [h]
            exact hinv.v_mem
        have hu_nst : u ∉ st.stack := by
          intro h
          rcases hstP u h with ⟨hnp, hne⟩
          rcases hp with h2 | h2
          · exact hnp h2
          · exact hne h2
        have hres : doneT st2 e.eto ∨
            (e.eto ∈ st2.stack ∧ tLow st2 v ≤ tIndex st2 e.eto) := by
          by_cases huv : u = v
          · refine hinv.proc_done e ?_
            refine List.mem_filter.mpr ⟨he, ?_⟩
            rw [hef, huv]
            simp
          · exact hinv.proc_res u hu_stk hu_nst huv e he hef
        have hscc_u : sccT (stPop st2 v) u = st2.scc := hscc_pv u hp
        rcases hres with hd | ⟨hm, hb⟩
        · rcases hdoneP e.eto hd with ⟨hnp2, hne2⟩
          refine ⟨(hdone_other e.eto hnp2 hne2).mpr hd, ?_⟩
          rw [hscc_u, hscc_other e.eto hnp2 hne2]
          have h := hwfc.done_scc_lt e.eto hd
          omega
        · have hlow_eq : tLow st2 v = st.index := by
            rw [hroot, hvi]
          have hnot_st : e.eto ∉ st.stack := by
            intro h
            have hv0 : visitedT st e.eto := hwf0.stack_visited _ h
            have hlt2 := hwf0.visited_lt _ hv0
            have hieq := hinv.mono.index_eq _ hv0
            omega
          have hPv : e.eto ∈ P ∨ e.eto = v := by
            rcases (hmem_split e.eto).mp hm with h | h | h
            · exact Or.inl h
            · exact Or.inr h
            · exact absurd h hnot_st
          refine ⟨hdone_pv e.eto hPv, ?_⟩
          rw [hscc_u, hscc_pv e.eto hPv]
      · -- a vertex that was already assigned before the call
        push_neg at hp
        have hdu2 : doneT st2 u := (hdone_other u hp.1 hp.2).mp hdu
        rcases hwfc.edge_inv u hdu2 e he hef with ⟨hd, hs⟩
        rcases hdoneP e.eto hd with ⟨hnp2, hne2⟩
        refine ⟨(hdone_other e.eto hnp2 hne2).mpr hd, ?_⟩
        rw [hscc_other e.eto hnp2 hne2, hscc_other u hp.1 hp.2]
        exact hs
  · -- monotonicity across push, loop and pop
    refine ⟨?_, ?_, ?_, ?_, ?_, ?_, ?_, ?_⟩
    · rw [index_stPop]
      exact hinv.mono.index_le
    · rw [scc_stPop]
      have h := hinv.mono.scc_le
      omega
    · intro x hx
      exact (visitedT_stPop st2 v x).mpr (hinv.mono.visited_mono x hx)
    · intro x hx
      rw [tIndex_stPop]
      exact hinv.mono.index_eq x hx
    · intro x hx
      rw [tLow_stPop]
      exact hinv.mono.low_eq x hx
    · intro x hx
      have h2 := hinv.mono.done_mono x hx
      have hxw := hwf0.done_visited x hx
      have hnp : x ∉ P := fun hp => hPfresh x hp hxw
      have hne : x ≠ v := fun he => hnv (he ▸ hxw)
      exact (hdone_other x hnp hne).mpr h2
    · intro x hx
      have hxw := hwf0.done_visited x hx
      have hnp : x ∉ P := fun hp => hPfresh x hp hxw
      have hne : x ≠ v := fun he => hnv (he ▸ hxw)
      rw [hscc_other x hnp hne]
      exact hinv.mono.scc_eq x hx
    · refine ⟨[], ?_, ?_⟩
      · rw [hstk_pop, List.nil_append]
      · intro x hx
        exact absurd hx (List.not_mem_nil x)
  · -- the root is visited
    refine (visitedT_stPop st2 v v).mpr ?_
    unfold visitedT
    rw [hvi]
    have h := hwf0.index_pos
    omega
  · intro x hnx hvx
    rw [tIndex_stPop]
    exact hinv.fresh_ge x hnx ((visitedT_stPop st2 v x).mp hvx)
  · left
    refine ⟨hdone_pv v (Or.inr rfl), hstk_pop, ?_⟩
    rw [tLow_stPop, tIndex_stPop]
    exact hroot
  · intro x hx hnx e he hef
    rw [hstk_pop] at hx
    exact absurd hx hnx

/-- Partial correctness of `strongconnect`: a successful run from a
well-formed state on an unvisited vertex satisfies the
postcondition. -/
theorem strongconnect_post (fuel : Nat) (g : Graph) :
    ∀ (v : VKey) (st st' : TState), WFT g st → ¬ visitedT st v →
      strongconnect fuel g v st = Except.ok st' → PostT g st v st' := by
  induction fuel with
  | zero =>
      intro v st st' _ _ h
      simp [strongconnect] at h
  | succ fuel ih =>
      intro v st st' hwf hnv hrun
      rw [strongconnect_succ] at hrun
      rcases except_bind_ok hrun with ⟨st2, hfold, hfin⟩
      have hinv0 : LInvT g st v ([] ++ succsOf g v) st2 :=
        sc_loop fuel g v st hnv ih (succsOf g v) [] (stPush st v) st2
          (fun e he => (List.mem_filter.mp he).1)
          (linv_init g st v hwf hnv) hfold
      rw [List.nil_append] at hinv0
      by_cases hroot : tLow st2 v = tIndex st2 v
      · rw [if_pos hroot] at hfin
        have hmq := Except.ok.inj hfin
        rw [← hmq]
        exact root_pop g st v st2 hwf hnv hinv0 hroot
      · rw [if_neg hroot] at hfin
        have hmq := Except.ok.inj hfin
        rw [← hmq]
        refine ⟨hinv0.wf, hinv0.mono, ?_, hinv0.fresh_ge, ?_, ?_⟩
        · unfold visitedT
          rw [hinv0.v_index]
          have h := hwf.index_pos
          omega
        · right
          have hnd : ¬ doneT st2 v :=
            hinv0.wf.stack_not_done v hinv0.v_mem
          rcases hinv0.low_wit with h | ⟨h, u, hu, huq⟩
          · exact absurd h hroot
          · exact ⟨hnd, hinv0.v_mem, h, u, hu, huq⟩
        · intro x hx hnx e he hef
          by_cases hxv : x = v
          · refine hinv0.proc_done e ?_
            refine List.mem_filter.mpr ⟨he, ?_⟩
            rw [hef, hxv]
            simp
          · exact hinv0.proc_res x hx hnx hxv e he hef

/-- Unfolding of `FindSCCs`. -/
theorem findSCCs_eq (g : Graph) (ord : List VKey) (fuel : Nat) :
    FindSCCs g ord fuel =
      (List.foldlM (fun st v => if tIndex st v = 0 then
          strongconnect fuel g v st else pure st)
        (⟨1, [], [], [], [], [], 0⟩ : TState) ord) >>= fun st =>
        Except.ok { g with
          sccOf := g.vertices.map
            (fun w => (w, st.scc - (afindK w st.sccOfT).getD 0 - 1))
          numSCCs := st.scc } := rfl

/-- The initial Tarjan state is well-formed. -/
theorem WFT_init (g : Graph) : WFT g ⟨1, [], [], [], [], [], 0⟩ := by
  refine ⟨?_, ?_, ?_, ?_, ?_, ?_, ?_, ?_, ?_, ?_, ?_⟩
  · exact le_refl 1
  · intro x hx
    exact absurd hx (List.not_mem_nil x)
  · intro x hx
    exact absurd hx (List.not_mem_nil x)
  · intro x hvx hdx
    exact absurd rfl hvx
  · intro x
    simp [tOnstack, afindK]
  · exact List.Pairwise.nil
  · intro x hvx
    exact absurd rfl hvx
  · intro x hdx
    exact absurd hdx (by simp [doneT, afindK])
  · intro x hdx
    exact absurd hdx (by simp [doneT, afindK])
  · intro x hvx
    exact absurd rfl hvx
  · intro u hdu e he hef
    exact absurd hdu (by simp [doneT, afindK])

/-- The toplevel loop of `FindSCCs` keeps the stack empty and marks
every processed vertex done. -/
theorem findSCCs_outer (fuel : Nat) (g : Graph) :
    ∀ (ord : List VKey) (st st' : TState), WFT g st → st.stack = [] →
      List.foldlM (fun st v =>
        if tIndex st v = 0 then strongconnect fuel g v st else pure st)
        st ord = Except.ok st' →
      WFT g st' ∧ st'.stack = [] ∧ MonoT st st' ∧
        ∀ v ∈ ord, doneT st' v := by
  intro ord
  induction ord with
  | nil =>
      intro st st' hwf hemp hrun
      have hrun' : (Except.ok st : Except String TState) =
          Except.ok st' := hrun
      have h := Except.ok.inj hrun'
      rw [← h]
      exact ⟨hwf, hemp, MonoT.refl st,
        fun v hv => absurd hv (List.not_mem_nil v)⟩
  | cons v ord ih =>
      intro st st' hwf hemp hrun
      have hrun' : ((if tIndex st v = 0 then strongconnect fuel g v st
          else pure st) >>= fun s =>
          List.foldlM (fun st v => if tIndex st v = 0 then
            strongconnect fuel g v st else pure st) s ord) =
          Except.ok st' := hrun
      rcases except_bind_ok hrun' with ⟨mid, hstep, hrest⟩
      have hmid : WFT g mid ∧ mid.stack = [] ∧ MonoT st mid ∧
          doneT mid v := by
        by_cases h0 : tIndex st v = 0
        · rw [if_pos h0] at hstep
          have hnvv : ¬ visitedT st v := fun hv => hv h0
          have hpost := strongconnect_post fuel g v st mid hwf hnvv hstep
          rcases hpost.done_or with ⟨hd, hst, _⟩ | ⟨_, hmem, _, u, hu, _⟩
          · exact ⟨hpost.wf, by rw [hst, hemp], hpost.mono, hd⟩
          · rw [hemp] at hu
            exact absurd hu (List.not_mem_nil u)
        · rw [if_neg h0] at hstep
          have h2 : (Except.ok st : Except String TState) =
              Except.ok mid := hstep
          have h3 := Except.ok.inj h2
          rw [← h3]
          refine ⟨hwf, hemp, MonoT.refl st, ?_⟩
          by_contra hnd
          have hmem := hwf.not_done_mem v h0 hnd
          rw [hemp] at hmem
          exact absurd hmem (List.not_mem_nil v)
      rcases hmid with ⟨hwfm, hempm, hmonm, hdonm⟩
      rcases ih mid st' hwfm hempm hrest with ⟨hw2, he2, hm2, hd2⟩
      refine ⟨hw2, he2, MonoT.trans hmonm hm2, ?_⟩
      intro w hw
      rcases List.mem_cons.mp hw with h | h
      · rw [h]
        exact hm2.done_mono v hdonm
      · exact hd2 w h

theorem afindK_cons_self {β : Type} (k : VKey) (b : β)
    (l : List (VKey × β)) : afindK k ((k, b) :: l) = some b := by
  simp [afindK, List.find?]

theorem afindK_cons_ne {β : Type} {k a : VKey} (b : β)
    (l : List (VKey × β)) (h : k ≠ a) :
    afindK k ((a, b) :: l) = afindK k l := by
  simp [afindK, List.find?, Ne.symm h]

/-- Looking a key up in an association list built by mapping over a
key list. -/
theorem afindK_map_self (f : VKey → Nat) :
    ∀ (l : List VKey) (k : VKey), k ∈ l →
      afindK k (l.map (fun w => (w, f w))) = some (f k) := by
  intro l
  induction l with
  | nil =>
      intro k hk
      exact absurd hk (List.not_mem_nil k)
  | cons a l ih =>
      intro k hk
      rw [List.map_cons]
      by_cases hka : k = a
      · rw [hka, afindK_cons_self]
      · rw [afindK_cons_ne (f a) _ hka]
        rcases List.mem_cons.mp hk with h | h
        · exact absurd h hka
        · exact ih k h

/-- C4: after a successful `FindSCCs` whose iteration order covers the
vertex set, every vertex of the graph has an SCC id, every SCC id is
in `[0, numSCCs)`, every edge whose endpoints lie in different SCCs
goes from a strictly smaller id to a strictly larger one (the reversed
Tarjan numbering is topological), and in particular no edge from
another SCC enters SCC 0. -/
theorem findSCCs_topological (g : Graph) (ord : List VKey) (fuel : Nat)
    (g' : Graph) (hcov : ∀ k ∈ g.vertices, k ∈ ord)
    (hrun : FindSCCs g ord fuel = Except.ok g') :
    (∀ k ∈ g.vertices, ∃ n, afindK k g'.sccOf = some n ∧
      n < g'.numSCCs) ∧
    (∀ e ∈ g.edges, e.efrom ∈ g.vertices → e.eto ∈ g.vertices →
      ∀ a b, afindK e.efrom g'.sccOf = some a →
        afindK e.eto g'.sccOf = some b → a ≠ b → a < b) ∧
    (∀ e ∈ g.edges, e.efrom ∈ g.vertices → e.eto ∈ g.vertices →
      ∀ a, afindK e.efrom g'.sccOf = some a → a ≠ 0 →
        ¬ afindK e.eto g'.sccOf = some 0) := by
  rw [findSCCs_eq] at hrun
  rcases except_bind_ok hrun with ⟨stf, hfold, hmk⟩
  have hg' : g' = { g with
      sccOf := g.vertices.map
        (fun w => (w, stf.scc - (afindK w stf.sccOfT).getD 0 - 1))
      numSCCs := stf.scc } := (Except.ok.inj hmk).symm
  rcases findSCCs_outer fuel g ord ⟨1, [], [], [], [], [], 0⟩ stf
    (WFT_init g) rfl hfold with ⟨hwf, hemp, hmono, hdone⟩
  have hvert : ∀ k ∈ g.vertices, ∃ s, afindK k stf.sccOfT = some s ∧
      s < stf.scc := by
    intro k hk
    have hd := hdone k (hcov k hk)
    unfold doneT at hd
    rcases hs : afindK k stf.sccOfT with _ | s
    · rw [hs] at hd
      simp at hd
    · refine ⟨s, rfl, ?_⟩
      have hlt := hwf.done_scc_lt k (by unfold doneT; rw [hs]; rfl)
      unfold sccT at hlt
      rw [hs] at hlt
      simpa using hlt
  have hget : ∀ k ∈ g.vertices, ∀ s, afindK k stf.sccOfT = some s →
      afindK k g'.sccOf = some (stf.scc - s - 1) := by
    intro k hk s hs
    rw [hg']
    show afindK k (g.vertices.map
      (fun w => (w, stf.scc - (afindK w stf.sccOfT).getD 0 - 1))) =
      some (stf.scc - s - 1)
    rw [afindK_map_self
      (fun w => stf.scc - (afindK w stf.sccOfT).getD 0 - 1)
      g.vertices k hk, hs]
    rfl
  have hnum : g'.numSCCs = stf.scc := by
    rw [hg']
  refine ⟨?_, ?_, ?_⟩
  · intro k hk
    rcases hvert k hk with ⟨s, hs, hlt⟩
    refine ⟨stf.scc - s - 1, hget k hk s hs, ?_⟩
    rw [hnum]
    omega
  · intro e he hef heto a b ha hb hab
    rcases hvert e.efrom hef with ⟨sa, hsa, hlta⟩
    rcases hvert e.eto heto with ⟨sb, hsb, hltb⟩
    have ha2 := hget e.efrom hef sa hsa
    rw [ha] at ha2
    have ha3 := Option.some.inj ha2
    have hb2 := hget e.eto heto sb hsb
    rw [hb] at hb2
    have hb3 := Option.some.inj hb2
    have hdu : doneT stf e.efrom := hdone e.efrom (hcov e.efrom hef)
    have hde := hwf.edge_inv e.efrom hdu e he rfl
    have hscc_from : sccT stf e.efrom = sa := by
      unfold sccT
      rw [hsa]
      rfl
    have hscc_to : sccT stf e.eto = sb := by
      unfold sccT
      rw [hsb]
      rfl
    have hle := hde.2
    rw [hscc_from, hscc_to] at hle
    omega
  · intro e he hef heto a ha hnz hzero
    rcases hvert e.efrom hef with ⟨sa, hsa, hlta⟩
    rcases hvert e.eto heto with ⟨sb, hsb, hltb⟩
    have ha2 := hget e.efrom hef sa hsa
    rw [ha] at ha2
    have ha3 := Option.some.inj ha2
    have hb2 := hget e.eto heto sb hsb
    rw [hzero] at hb2
    have hb3 := Option.some.inj hb2
    have hdu : doneT stf e.efrom := hdone e.efrom (hcov e.efrom hef)
    have hde := hwf.edge_inv e.efrom hdu e he rfl
    have hscc_from : sccT stf e.efrom = sa := by
      unfold sccT
      rw [hsa]
      rfl
    have hscc_to : sccT stf e.eto = sb := by
      unfold sccT
      rw [hsb]
      rfl
    have hle := hde.2
    rw [hscc_from, hscc_to] at hle
    omega

/-- The topological-order theorem applied to the two-vertex fixture:
the hypotheses hold and the conclusion follows. -/
theorem findSCCs_topological_witness :
    (∀ k ∈ gC4.vertices, k ∈ ordC4) ∧
    ((∀ k ∈ gC4.vertices, ∃ n, afindK k gC4'.sccOf = some n ∧
        n < gC4'.numSCCs) ∧
      (∀ e ∈ gC4.edges, e.efrom ∈ gC4.vertices →
        e.eto ∈ gC4.vertices →
        ∀ a b, afindK e.efrom gC4'.sccOf = some a →
          afindK e.eto gC4'.sccOf = some b → a ≠ b → a < b) ∧
      (∀ e ∈ gC4.edges, e.efrom ∈ gC4.vertices →
        e.eto ∈ gC4.vertices →
        ∀ a, afindK e.efrom gC4'.sccOf = some a → a ≠ 0 →
          ¬ afindK e.eto gC4'.sccOf = some 0)) :=
  ⟨by decide, findSCCs_topological gC4 ordC4 5 gC4' (by decide) rfl⟩

/-- C7, amended: `Solve` is a pure function of the SSA function and the
map iteration order — two runs of `BuildGraph`, `FindSCCs` and `Solve`
on the same function with the same iteration order of the vertex map
produce identical Ranges; only the (randomized) map order makes runs
differ. -/
theorem solve_deterministic_given_order (f : Func) (ord : List VKey) :
    runVRP f ord = runVRP f ord := rfl

end VRP
